import Mathlib

/-!
Verification development for the news-search core of the okolica bot
(`parser.py`).  The Python source is shallowly embedded: each Python
function the claims mention becomes a Lean definition with the same name
(module-level constants from `config.py` included), strings are Lean
`String`s processed as `List Char`, the optional morphological analyzer
(pymorphy2, an external capability) is a parameter of type
`Option (String → String)`, and network effects are passed in as explicit
outcome values (`Except`).
-/

/-- Lowercasing of a single character, modelling Python `str.lower` on the
alphabets this program processes: ASCII letters and Russian Cyrillic
(`А`–`Я` → `а`–`я`, `Ё` → `ё`). Other characters are left unchanged. -/
def pyLowerChar (c : Char) : Char :=
  if 'A' ≤ c ∧ c ≤ 'Z' then Char.ofNat (c.toNat + 32)
  else if 'А' ≤ c ∧ c ≤ 'Я' then Char.ofNat (c.toNat + 32)
  else if c = 'Ё' then 'ё'
  else c

/-- Python `str.lower`, character by character. -/
def pyLower (s : String) : String := ⟨s.data.map pyLowerChar⟩

/-- Python `\s` / `str.strip` whitespace class (ASCII part, which is all the
sources produce after parsing). -/
def isSpaceChar (c : Char) : Bool :=
  c = ' ' || c = '\t' || c = '\n' || c = '\x0d' || c = '\x0b' || c = '\x0c'

/-- Python substring test `pat in hay` on character lists. -/
def strContainsL (hay pat : List Char) : Bool :=
  hay.tails.any (fun t => pat.isPrefixOf t)

/-- Python substring test `pat in hay`. -/
def strContains (hay pat : String) : Bool := strContainsL hay.data pat.data

/-- Python `str.strip()` (no argument): drop leading and trailing whitespace. -/
def pyStripL (cs : List Char) : List Char :=
  ((cs.dropWhile isSpaceChar).reverse.dropWhile isSpaceChar).reverse

/-- Python `str.strip()` on strings. -/
def pyStrip (s : String) : String := ⟨pyStripL s.data⟩

/-- Helper for `collapseWs`: the boolean records whether the previous kept
character position was inside a whitespace run. -/
def collapseWsAux : List Char → Bool → List Char
  | [], _ => []
  | c :: rest, prevSpace =>
    if isSpaceChar c then
      if prevSpace then collapseWsAux rest true
      else ' ' :: collapseWsAux rest true
    else c :: collapseWsAux rest false

/-- Python `re.sub(r"\s+", " ", s)`: every maximal whitespace run becomes a
single space. -/
def collapseWs (s : String) : String := ⟨collapseWsAux s.data false⟩

/-- Python `s.replace(pat, rep, 1)` on character lists: replace the first
occurrence of `pat` (non-empty) by `rep`, leave `s` unchanged if absent. -/
def replaceFirstL (pat rep : List Char) : List Char → List Char
  | [] => []
  | c :: rest =>
    if pat.isPrefixOf (c :: rest) then rep ++ (c :: rest).drop pat.length
    else c :: replaceFirstL pat rep rest

/-- Python `s.replace(pat, rep, 1)` on strings. -/
def replaceFirst (s pat rep : String) : String := ⟨replaceFirstL pat.data rep.data s.data⟩

/-- Python `s.rstrip("/")`: drop all trailing slashes. -/
def rstripSlash (s : String) : String :=
  ⟨(s.data.reverse.dropWhile (fun c => c = '/')).reverse⟩

/-- Lexicographic (code-point) order on character lists, i.e. Python string
`<=`; used for the title tie-break in the ranker. -/
def listLe : List Char → List Char → Bool
  | [], _ => true
  | _ :: _, [] => false
  | a :: as, b :: bs => if a < b then true else if b < a then false else listLe as bs

/-- Helper for `findTokens`: accumulates the current run of matching
characters (reversed) and emits it when the run ends. -/
def tokensAux (p : Char → Bool) : List Char → List Char → List (List Char)
  | [], acc => if acc.isEmpty then [] else [acc.reverse]
  | c :: rest, acc =>
    if p c then tokensAux p rest (c :: acc)
    else if acc.isEmpty then tokensAux p rest []
    else acc.reverse :: tokensAux p rest []

/-- Python `re.findall` of a character-class-plus pattern: the maximal
non-empty runs of characters satisfying `p`, in order. -/
def findTokens (p : Char → Bool) (s : String) : List String :=
  (tokensAux p s.data []).map (fun cs => ⟨cs⟩)

/-- Character class `[а-яёa-z0-9]` of the query tokenizer (parser.py:110). -/
def isQueryChar (c : Char) : Bool :=
  ('а' ≤ c && c ≤ 'я') || c = 'ё' || ('a' ≤ c && c ≤ 'z') || ('0' ≤ c && c ≤ '9')

/-- Character class `[а-яёa-z]` of the searchable-text tokenizer
(parser.py:423); note it has no digits. -/
def isTextChar (c : Char) : Bool :=
  ('а' ≤ c && c ≤ 'я') || c = 'ё' || ('a' ≤ c && c ≤ 'z')

/- ----- constants from config.py ----- -/

def SITE_URL : String := "https://sibokolica.ru"

def OLD_SITE_URL : String := "https://okolica.net"

def ARTICLES_LIMIT_SEARCH : Nat := 10

def ARTICLES_LIMIT_ARCHIVE : Nat := 15

def OKOLICA_GAZETA_PAGES : Nat := 8

def OKOLICA_GAZETA_PAGES_ARCHIVE : Nat := 20

/- ----- stop words and synonyms (parser.py:31-53) ----- -/

def _STOP_WORDS : List String :=
  ["и", "в", "на", "с", "по", "из", "к", "от", "для", "о", "об", "а", "но", "у",
   "же", "или", "как", "что", "это", "всё", "все", "его", "её", "их", "он", "она",
   "они", "мы", "вы", "я", "не", "ни", "без", "до", "за", "при", "про", "так",
   "уже", "еще", "тоже", "только", "можно", "быть", "есть", "был", "была"]

/-- The synonym table, as an association list preserving the Python dict's
insertion order (relevant: the reverse lookup scans entries in order). -/
def _SYNONYMS : List (String × List String) :=
  [("поэзия", ["стихи", "стих", "стихотворение"]),
   ("стихи", ["поэзия", "стих"]),
   ("стих", ["поэзия", "стихи"]),
   ("стихотворение", ["поэзия", "стихи"]),
   ("рассказ", ["история", "очерк"]),
   ("очерк", ["рассказ", "статья"]),
   ("статья", ["очерк", "материал"]),
   ("победа", ["победитель", "победный"]),
   ("школа", ["школьник", "школьный"]),
   ("дети", ["ребенок", "ребята"]),
   ("праздник", ["праздничный", "празднование"]),
   ("война", ["военный", "фронт"]),
   ("татарск", ["татарский"])]

/-- Dict lookup `_SYNONYMS[w]` guarded by `w in _SYNONYMS`. -/
def synFind (w : String) : Option (List String) :=
  (_SYNONYMS.find? (fun p => p.1 == w)).map (fun p => p.2)

/- ----- _normalize_word (parser.py:72-83) ----- -/

/-- `_normalize_word`: lemmatize via the optional morphological analyzer
(modelled as `morph : Option (String → String)`, applied to the lowercased
word), falling back to plain lowercasing when the capability is absent. -/
def _normalize_word (morph : Option (String → String)) (word : String) : String :=
  match morph with
  | none => pyLower word
  | some f => f (pyLower word)

/- ----- _expand_with_synonyms (parser.py:86-102) ----- -/

/-- Inner loop of the key branch of `_expand_with_synonyms`: append each
synonym `s` of the current word that is not yet seen and has length ≥ 2,
updating the seen set. -/
def addSyns : List String → List String → List String → List String × List String
  | seen, result, [] => (seen, result)
  | seen, result, s :: rest =>
    if s ∉ seen ∧ 2 ≤ s.length then addSyns (s :: seen) (result ++ [s]) rest
    else addSyns seen result rest

/-- One iteration of the `for w in words` loop of `_expand_with_synonyms`:
if `w` is a key of the table, append its eligible synonyms; otherwise append
the key of the first table entry whose synonym list contains `w` and whose
key is not yet seen (the `break` stops after the first such entry). -/
def expandStep : List String × List String → String → List String × List String
  | (seen, result), w =>
    match synFind w with
    | some syns => addSyns seen result syns
    | none =>
      match _SYNONYMS.find? (fun p => p.2.contains w && !(seen.contains p.1)) with
      | some p => (p.1 :: seen, result ++ [p.1])
      | none => (seen, result)

/-- `_expand_with_synonyms`: one pass over the input words (appended
synonyms are themselves never expanded), starting from
`seen = set(words)`, `result = list(words)`. -/
def _expand_with_synonyms (words : List String) : List String :=
  (words.foldl expandStep (words, words)).2

/- ----- _extract_and_expand_query (parser.py:105-125) ----- -/

/-- The lemmatize-and-deduplicate loop of `_extract_and_expand_query`:
keep the first occurrence of each normalized form, in order. -/
def dedupKeepFirst : List String → List String → List String
  | [], _ => []
  | w :: ws, seen =>
    if seen.contains w then dedupKeepFirst ws seen
    else w :: dedupKeepFirst ws (w :: seen)

/-- `_extract_and_expand_query`: tokenize the lowercased query, drop tokens
shorter than 2 characters and stop words, lemmatize, deduplicate keeping
first-seen order, then expand with synonyms. -/
def _extract_and_expand_query (morph : Option (String → String)) (query : String) :
    List String :=
  let words := (findTokens isQueryChar (pyLower query)).filter (fun w => 2 ≤ w.length)
  let words := words.filter (fun w => !(_STOP_WORDS.contains w))
  if words.isEmpty then []
  else _expand_with_synonyms (dedupKeepFirst (words.map (_normalize_word morph)) [])

/- ----- article records ----- -/

/-- The dict-shaped article record flowing through the adapters
(`title`, `url`, `summary`, `_fulltext`; the last is written `fulltext`
here). Adapters that produce no summary/fulltext store `""`, matching
`a.get(..., "")` in the source. -/
structure Article where
  title : String
  url : String
  summary : String
  fulltext : String
deriving DecidableEq, Repr

/-- The search-result dict `{"title", "url", "summary"}` (fulltext
stripped) returned to callers of `_run_search`. -/
structure SearchResult where
  title : String
  url : String
  summary : String
deriving DecidableEq, Repr

/-- `f"{a['title']} {a.get('summary', '')} {a.get('_fulltext', '')}"`. -/
def searchable (a : Article) : String :=
  a.title ++ " " ++ a.summary ++ " " ++ a.fulltext

/-- `{"title": a["title"], "url": a["url"], "summary": a.get("summary", "")}`. -/
def toResult (a : Article) : SearchResult := ⟨a.title, a.url, a.summary⟩

/- ----- matcher (parser.py:397-441) ----- -/

/-- The value `_get_lemma` returns for `word`: the cache is
value-transparent (proved below for the stateful `_get_lemma`), so the
matcher is embedded with this pure lookup. -/
def getLemmaPure (morph : Option (String → String)) (word : String) : String :=
  _normalize_word morph (pyLower word)

/-- `_word_matches`: substring hit on the lowercased searchable text, or a
per-text-word comparison by lemma equality, mutual substring, or a shared
3-character prefix of the two lemmas. -/
def _word_matches (morph : Option (String → String))
    (query_word searchableText : String) : Bool :=
  let searchable_lower := pyLower searchableText
  if strContains searchable_lower query_word then true
  else
    let query_lemma := getLemmaPure morph query_word
    let words_in_text :=
      (findTokens isTextChar searchable_lower).filter (fun w => 2 ≤ w.length)
    words_in_text.any (fun w =>
      let word_lemma := getLemmaPure morph w
      query_lemma == word_lemma
      || strContains word_lemma query_word
      || strContains query_word word_lemma
      || (3 ≤ query_lemma.length && 3 ≤ word_lemma.length
          && query_lemma.data.take 3 == word_lemma.data.take 3))

/-- `_count_matches`: how many query words match the searchable text. -/
def _count_matches (morph : Option (String → String))
    (query_words : List String) (searchableText : String) : Nat :=
  query_words.countP (fun w => _word_matches morph w searchableText)

/- ----- ranker (parser.py:444-479) ----- -/

/-- The sort order of `full_match.sort(key=lambda x: (-x[0], x[1]["title"]))`:
descending match count, ties broken by ascending (code-point lexicographic)
title. -/
def scoredRel (x y : Nat × Article) : Prop :=
  y.1 < x.1 ∨ (x.1 = y.1 ∧ listLe x.2.title.data y.2.title.data = true)

instance scoredRelDec : DecidableRel scoredRel := fun x y =>
  inferInstanceAs
    (Decidable (y.1 < x.1 ∨ (x.1 = y.1 ∧ listLe x.2.title.data y.2.title.data = true)))

/-- The `full_match` accumulation loop of `_run_search`: the scored records
matching every query word, in pool order. -/
def fullMatchScored (morph : Option (String → String))
    (articles : List Article) (query_words : List String) : List (Nat × Article) :=
  articles.filterMap (fun a =>
    let s := searchable a
    if query_words.all (fun w => _word_matches morph w s)
    then some (_count_matches morph query_words s, a) else none)

/-- The `any_match` accumulation loop of `_run_search`: the scored records
matching at least one query word, in pool order. -/
def anyMatchScored (morph : Option (String → String))
    (articles : List Article) (query_words : List String) : List (Nat × Article) :=
  articles.filterMap (fun a =>
    let s := searchable a
    let cnt := _count_matches morph query_words s
    if 0 < cnt then some (cnt, a) else none)

/-- `_run_search`: empty query → empty result; otherwise the full-match
phase, and only when that is empty the any-match phase; each phase sorts
its scored records (Python `list.sort` is stable, modelled by the stable
`List.insertionSort` with the same comparison), truncates to `limit` and
strips fulltext. -/
def _run_search (morph : Option (String → String)) (articles : List Article)
    (query_words : List String) (limit : Nat) : List SearchResult :=
  if query_words.isEmpty then []
  else
    let full_match := fullMatchScored morph articles query_words
    if !full_match.isEmpty then
      ((List.insertionSort scoredRel full_match).take limit).map (fun p => toResult p.2)
    else
      ((List.insertionSort scoredRel (anyMatchScored morph articles query_words)).take
        limit).map (fun p => toResult p.2)

/- ----- merger (parser.py:482-499) ----- -/

/-- URL canonicalization of the merger: first `http://` occurrence replaced
by `https://`, trailing slashes stripped. -/
def canonUrl (url : String) : String :=
  rstripSlash (replaceFirst url "http://" "https://")

/-- Python dict assignment `by_url[k] = a` on an insertion-ordered
association list: overwrite in place if the key exists, else append. -/
def upsert (m : List (String × Article)) (k : String) (a : Article) :
    List (String × Article) :=
  if m.any (fun p => p.1 == k) then m.map (fun p => if p.1 == k then (k, a) else p)
  else m ++ [(k, a)]

/-- The guarded insertion `if url not in by_url: by_url[url] = a` of the
HTML loop. -/
def insertIfAbsent (m : List (String × Article)) (k : String) (a : Article) :
    List (String × Article) :=
  if m.any (fun p => p.1 == k) then m else m ++ [(k, a)]

/-- `_merge_okolica_sources`: RSS records enter an insertion-ordered map
keyed by canonical URL (later RSS duplicates overwrite), HTML records enter
only on fresh keys, then the map's values are listed and the gazeta records
appended without URL deduplication (`gazeta_articles or []` is modelled by
passing `[]` for `None`). -/
def _merge_okolica_sources (rss html gazeta : List Article) : List Article :=
  let m1 := rss.foldl (fun m a => upsert m (canonUrl a.url) a) []
  let m2 := html.foldl (fun m a => insertIfAbsent m (canonUrl a.url) a) m1
  m2.map (fun p => p.2) ++ gazeta

/- ----- fetcher retry loop (parser.py:128-152) ----- -/

/-- Outcome of one HTTP attempt: a response with a status code, or a
network-level failure (`requests.RequestException`). -/
inductive FetchOutcome where
  | resp (status : Nat)
  | netErr (msg : String)
deriving DecidableEq, Repr

/-- The body of `for attempt in range(retries + 1)`, by remaining
iterations: on the last attempt a 503 response is returned as-is and a
network failure is raised as the last error; earlier attempts retry on
503 and on network failure, and return any other response immediately. -/
def runAttemptsAux (outcomes : Nat → FetchOutcome) (attempt : Nat) :
    Nat → Except String Nat
  | 0 =>
    match outcomes attempt with
    | .resp s => .ok s
    | .netErr e => .error e
  | left + 1 =>
    match outcomes attempt with
    | .resp s => if s = 503 then runAttemptsAux outcomes (attempt + 1) left else .ok s
    | .netErr _ => runAttemptsAux outcomes (attempt + 1) left

/-- `_make_request`, with the network modelled as the per-attempt outcome
function; returns the final response status or the propagated last error. -/
def _make_request (outcomes : Nat → FetchOutcome) (retries : Nat) : Except String Nat :=
  runAttemptsAux outcomes 0 retries

/- ----- HTML-listing adapter (parser.py:274-347) ----- -/

/-- An anchor element with its `href` attribute and extracted text. -/
structure Anchor where
  href : String
  text : String
deriving DecidableEq, Repr

/-- Does `cs` start with a match of `/news/[^/]+/\d+\.html`: the literal
`/news/`, a non-empty run without `/`, a `/`, a non-empty digit run, then
`.html`. -/
def startsNewsPat (cs : List Char) : Bool :=
  if "/news/".data.isPrefixOf cs then
    let rest := cs.drop 6
    let seg := rest.takeWhile (fun c => c ≠ '/')
    let rest2 := rest.drop (seg.length + 1)
    let ds := rest2.takeWhile (fun c => c.isDigit)
    !seg.isEmpty && seg.length < rest.length && !ds.isEmpty
      && ".html".data.isPrefixOf (rest2.drop ds.length)
  else false

/-- `re.search(r"/news/[^/]+/\d+\.html", href)`: the pattern occurs at some
position of `href`. -/
def hasNewsPat (href : String) : Bool := href.data.tails.any startsNewsPat

/-- The href filter of the HTML-listing loop: must contain `/news/` and
`.html`, must not be a feed link (`rss`) nor `/top.html` nor `/last.html`,
and must match the strict article path pattern. -/
def anchorHrefOk (href : String) : Bool :=
  strContains href "/news/" && strContains href ".html" && !strContains href "rss"
    && !strContains href "/top.html" && !strContains href "/last.html"
    && hasNewsPat href

/-- `re.sub(r"\s*\[\.\.\.\]\s*$", "", title)`: strip one trailing
`[...]` truncation marker together with the whitespace around it. -/
def stripTrailingMarker (title : String) : String :=
  let r := title.data.reverse.dropWhile isSpaceChar
  if "]...[".data.isPrefixOf r then ⟨((r.drop 5).dropWhile isSpaceChar).reverse⟩
  else title

/-- Absolute article URL: prepend the site root to relative hrefs, then
normalize the scheme to https (first occurrence). -/
def mkFullUrl (href : String) : String :=
  let full := if "http".data.isPrefixOf href.data then href else OLD_SITE_URL ++ href
  replaceFirst full "http://" "https://"

/-- One anchor of the listing loop. State: (crawl-wide seen hrefs, emitted
records paired with the href they came from — the href is ghost data used
only to state the deduplication property). Mirrors the source order: href
checks, seen check, title stripping and length check, then emit. -/
def processAnchor (st : List String × List (String × Article)) (a : Anchor) :
    List String × List (String × Article) :=
  let (seen, arts) := st
  if !anchorHrefOk a.href then st
  else if seen.contains a.href then st
  else
    let title := stripTrailingMarker a.text
    if title = "" ∨ title.length < 5 then st
    else (a.href :: seen, arts ++ [(a.href, ⟨title, mkFullUrl a.href, "", ""⟩)])

/-- All anchors of one fetched page. -/
def processPage (st : List String × List (String × Article)) (anchors : List Anchor) :
    List String × List (String × Article) :=
  anchors.foldl processAnchor st

/-- The page loop of one section: a fetch failure breaks out of the loop,
keeping the records gathered so far. -/
def sectionPagesAux : List (Except String (List Anchor)) →
    List String × List (String × Article) → List String × List (String × Article)
  | [], st => st
  | page :: rest, st =>
    match page with
    | .error _ => st
    | .ok anchors => sectionPagesAux rest (processPage st anchors)

/-- `_fetch_okolica_html_from_path`: process one section's pages (the page
outcomes are the input; the list length models the configured page count),
starting from the crawl-wide seen set; returns the updated seen set and
this section's records. -/
def _fetch_okolica_html_from_path (pages : List (Except String (List Anchor)))
    (seen : List String) : List String × List (String × Article) :=
  sectionPagesAux pages (seen, [])

/-- One section of the crawl: run its pages from the shared seen set and
append its records to the crawl's accumulator. -/
def htmlSectionStep (st : List String × List (String × Article))
    (pages : List (Except String (List Anchor))) :
    List String × List (String × Article) :=
  let r := _fetch_okolica_html_from_path pages st.1
  (r.1, st.2 ++ r.2)

/-- `_fetch_okolica_html`: the main feed section followed by the category
sections, one page-outcome list per section, threading the shared seen set;
concatenates the per-section records. -/
def _fetch_okolica_html (sections : List (List (Except String (List Anchor)))) :
    List (String × Article) :=
  (sections.foldl htmlSectionStep ([], [])).2

/-- The article list of the HTML crawl, with the ghost hrefs dropped. -/
def okolicaHtmlArticles (sections : List (List (Except String (List Anchor)))) :
    List Article :=
  (_fetch_okolica_html sections).map (fun p => p.2)

/- ----- archive-bullet adapter (parser.py:350-394) ----- -/

/-- Python `txt.split(sep)` for a one-character separator (empty fragments
kept). -/
def splitOnChar (sep : Char) : List Char → List Char → List (List Char)
  | [], acc => [acc.reverse]
  | c :: rest, acc =>
    if c = sep then acc.reverse :: splitOnChar sep rest []
    else splitOnChar sep rest (c :: acc)

/-- One candidate title of a bulleted block: collapse inner whitespace,
then emit unless shorter than 5 characters after collapsing or already seen
anywhere in the crawl. -/
def gazetaPartStep (st2 : List String × List Article) (p : List Char) :
    List String × List Article :=
  let title : String := collapseWs ⟨p⟩
  if title.length < 5 ∨ st2.1.contains title then st2
  else (st2.1 ++ [title],
    st2.2 ++ [⟨title, OLD_SITE_URL ++ "/gazeta/", "", title⟩])

/-- One block element of an archive page: skip unless its text contains the
bullet and is at least 10 characters long; split on `•`, strip each part,
keep parts of length ≥ 5, then process each candidate title. -/
def processGazetaBlock (st : List String × List Article) (txt : String) :
    List String × List Article :=
  if !strContains txt "•" || txt.length < 10 then st
  else
    let parts := ((splitOnChar '•' txt.data []).map pyStripL).filter
      (fun p => 5 ≤ p.length)
    parts.foldl gazetaPartStep st

/-- The archive page loop: a fetch failure breaks, keeping gathered
records; each page is its list of block texts. -/
def gazetaPagesAux : List (Except String (List String)) →
    List String × List Article → List String × List Article
  | [], st => st
  | page :: rest, st =>
    match page with
    | .error _ => st
    | .ok blocks => gazetaPagesAux rest (blocks.foldl processGazetaBlock st)

/-- `_fetch_okolica_gazeta`: crawl the archive pages with a global
seen-title set, starting empty. -/
def _fetch_okolica_gazeta (pages : List (Except String (List String))) : List Article :=
  (gazetaPagesAux pages ([], [])).2

/- ----- RSS adapter boundary and search composition (parser.py:219-271, 502-518) ----- -/

/-- `_fetch_okolica_rss`: the whole fetch-and-parse body is wrapped in
`try/except` returning `[]`; the parsed item records (or the raised error)
are the input. -/
def _fetch_okolica_rss (res : Except String (List Article)) : List Article :=
  match res with
  | .ok arts => arts
  | .error _ => []

/-- `search_okolica_news`: fetch RSS and the HTML sections (each degrading
to an empty contribution on failure), merge without gazeta, return `[]` for
an empty pool, else run the ranked search with the normalized query; a
falsy (`0`) limit becomes `ARTICLES_LIMIT_SEARCH`. -/
def search_okolica_news (morph : Option (String → String))
    (rssRes : Except String (List Article))
    (htmlSections : List (List (Except String (List Anchor))))
    (query : String) (limit : Nat) : List SearchResult :=
  let lim := if limit = 0 then ARTICLES_LIMIT_SEARCH else limit
  let rss := _fetch_okolica_rss rssRes
  let html := okolicaHtmlArticles htmlSections
  let articles := _merge_okolica_sources rss html []
  if articles.isEmpty then []
  else _run_search morph articles (_extract_and_expand_query morph query) lim

/- ----- bounded lemma cache (parser.py:397-408) ----- -/

def _LEMMA_CACHE_MAX : Nat := 5000

/-- `_get_lemma` with the module-level cache made explicit: lowercase the
word, return the cached lemma on a hit; on a miss clear the cache if it is
full, then compute, store and return the lemma. -/
def _get_lemma (morph : Option (String → String)) (cache : List (String × String))
    (word : String) : String × List (String × String) :=
  let w := pyLower word
  match cache.lookup w with
  | some v => (v, cache)
  | none =>
    let cache2 := if _LEMMA_CACHE_MAX ≤ cache.length then [] else cache
    let v := _normalize_word morph w
    (v, cache2 ++ [(w, v)])

/- ===== theorems ===== -/

/-- Helper: a successful `List.lookup` returns a value stored in the list. -/
theorem lookup_mem {l : List (String × String)} {k v : String}
    (h : l.lookup k = some v) : (k, v) ∈ l := by
  induction l with
  | nil => simp [List.lookup] at h
  | cons p rest ih =>
    obtain ⟨k1, v1⟩ := p
    rw [List.lookup_cons] at h
    cases hbeq : (k == k1) with
    | true =>
      rw [hbeq] at h
      simp only at h
      obtain rfl : v1 = v := by injection h
      obtain rfl : k = k1 := by exact eq_of_beq hbeq
      exact List.mem_cons_self _ _
    | false =>
      rw [hbeq] at h
      simp only at h
      exact List.mem_cons_of_mem _ (ih h)

/-- C4: for every article pool and every limit, if the query term list is
empty then `_run_search` returns the empty list, never the whole pool. -/
theorem run_search_empty_query (morph : Option (String → String))
    (articles : List Article) (limit : Nat) :
    _run_search morph articles [] limit = [] := rfl

/-- C6: normalizing the query `"стихи"` (with the morphological capability
absent, its documented fallback) yields exactly
`["стихи", "поэзия", "стих"]`: the term set contains all three words and
the original term comes first. -/
theorem extract_expand_stihi :
    _extract_and_expand_query none "стихи" = ["стихи", "поэзия", "стих"] ∧
    (_extract_and_expand_query none "стихи").head? = some "стихи" ∧
    "стихи" ∈ _extract_and_expand_query none "стихи" ∧
    "поэзия" ∈ _extract_and_expand_query none "стихи" ∧
    "стих" ∈ _extract_and_expand_query none "стихи" := by decide

/-- C9: `_make_request` with the default 2 retries never consults an
attempt beyond index 2 (at most 2 additional attempts after the first,
whether retrying on 503 responses or on network failures); three
consecutive network failures propagate the last error; two 503 responses
are each retried and the third attempt's response is returned. -/
theorem make_request_retry_policy :
    (∀ f g : Nat → FetchOutcome, (∀ i, i ≤ 2 → f i = g i) →
      _make_request f 2 = _make_request g 2) ∧
    (∀ (f : Nat → FetchOutcome) (e0 e1 e2 : String),
      f 0 = .netErr e0 → f 1 = .netErr e1 → f 2 = .netErr e2 →
      _make_request f 2 = .error e2) ∧
    (∀ (f : Nat → FetchOutcome) (s : Nat),
      f 0 = .resp 503 → f 1 = .resp 503 → f 2 = .resp s →
      _make_request f 2 = .ok s) := by
  refine ⟨?_, ?_, ?_⟩
  · intro f g h
    have h0 := h 0 (by omega)
    have h1 := h 1 (by omega)
    have h2 := h 2 (by omega)
    show runAttemptsAux f 0 2 = runAttemptsAux g 0 2
    rw [show (2 : Nat) = 1 + 1 from rfl]
    unfold runAttemptsAux
    rw [h0]
    cases g 0 with
    | resp s =>
      by_cases hs : s = 503
      · simp only [hs, if_pos rfl]
        unfold runAttemptsAux
        rw [h1]
        cases g 1 with
        | resp s1 =>
          by_cases hs1 : s1 = 503
          · simp only [hs1, if_pos rfl]
            unfold runAttemptsAux
            rw [h2]
          · simp [hs1]
        | netErr e =>
          unfold runAttemptsAux
          rw [h2]
      · simp [hs]
    | netErr e =>
      unfold runAttemptsAux
      rw [h1]
      cases g 1 with
      | resp s1 =>
        by_cases hs1 : s1 = 503
        · simp only [hs1, if_pos rfl]
          unfold runAttemptsAux
          rw [h2]
        · simp [hs1]
      | netErr e1 =>
        unfold runAttemptsAux
        rw [h2]
  · intro f e0 e1 e2 h0 h1 h2
    show runAttemptsAux f 0 2 = .error e2
    rw [show (2 : Nat) = 1 + 1 from rfl]
    unfold runAttemptsAux
    rw [h0]
    unfold runAttemptsAux
    rw [h1]
    unfold runAttemptsAux
    rw [h2]
  · intro f s h0 h1 h2
    show runAttemptsAux f 0 2 = .ok s
    rw [show (2 : Nat) = 1 + 1 from rfl]
    unfold runAttemptsAux
    rw [h0]
    simp only [if_pos rfl]
    unfold runAttemptsAux
    rw [h1]
    simp only [if_pos rfl]
    unfold runAttemptsAux
    rw [h2]
    simp

/-- Witness for C9 at a concrete outcome function. -/
theorem make_request_retry_policy_witness :
    _make_request (fun _ => .netErr "err") 2 = .error "err" :=
  make_request_retry_policy.2.1 (fun _ => .netErr "err") "err" "err" "err" rfl rfl rfl

/-- C10: on every cache state whose entries record `_normalize_word` values
(the states reachable by prior lookups), `_get_lemma` returns exactly the
uncached `_normalize_word(word.lower())`, the resulting cache is again of
that shape, and a cache within the 5000-entry bound stays within it. -/
theorem get_lemma_cached_correct (morph : Option (String → String))
    (cache : List (String × String)) (word : String)
    (hv : ∀ p ∈ cache, p.2 = _normalize_word morph p.1) :
    (_get_lemma morph cache word).1 = _normalize_word morph (pyLower word) ∧
    (∀ p ∈ (_get_lemma morph cache word).2, p.2 = _normalize_word morph p.1) ∧
    (cache.length ≤ _LEMMA_CACHE_MAX →
      (_get_lemma morph cache word).2.length ≤ _LEMMA_CACHE_MAX) := by
  cases hl : cache.lookup (pyLower word) with
  | some v =>
    have hres : _get_lemma morph cache word = (v, cache) := by
      simp only [_get_lemma, hl]
    rw [hres]
    exact ⟨(hv _ (lookup_mem hl)).symm ▸ rfl, hv, fun h => h⟩
  | none =>
    have hres : _get_lemma morph cache word =
        (_normalize_word morph (pyLower word),
         (if _LEMMA_CACHE_MAX ≤ cache.length then [] else cache) ++
           [(pyLower word, _normalize_word morph (pyLower word))]) := by
      simp only [_get_lemma, hl]
    rw [hres]
    refine ⟨rfl, ?_, ?_⟩
    · intro p hp
      rcases List.mem_append.1 hp with hp2 | hp2
      · split at hp2
        · simp at hp2
        · exact hv _ hp2
      · simp only [List.mem_singleton] at hp2
        rw [hp2]
    · intro _
      split
      · simp [_LEMMA_CACHE_MAX]
      · next hc =>
        simp only [List.length_append, List.length_singleton]
        unfold _LEMMA_CACHE_MAX at hc ⊢
        omega

/-- Witness for C10 on the empty cache. -/
theorem get_lemma_cached_correct_witness :
    (_get_lemma none [] "Школа").1 = _normalize_word none (pyLower "Школа") ∧
    (∀ p ∈ (_get_lemma none [] "Школа").2, p.2 = _normalize_word none p.1) ∧
    (List.length ([] : List (String × String)) ≤ _LEMMA_CACHE_MAX →
      (_get_lemma none [] "Школа").2.length ≤ _LEMMA_CACHE_MAX) :=
  get_lemma_cached_correct none [] "Школа" (by simp)

/-- Helper for C3: with a non-empty term list and a positive limit,
`_run_search` returns the empty list exactly when no pooled record matches
any query term (both ranking phases find nothing). -/
theorem run_search_eq_nil_iff (morph : Option (String → String))
    (articles : List Article) (query_words : List String) (limit : Nat)
    (hq : query_words ≠ []) (hl : 1 ≤ limit) :
    (_run_search morph articles query_words limit = [] ↔
      ∀ a ∈ articles, _count_matches morph query_words (searchable a) = 0) := by
  unfold _run_search
  rw [if_neg (by simpa using hq)]
  rcases hfull : fullMatchScored morph articles query_words with _ | ⟨p, fullTail⟩
  · simp only [List.isEmpty_nil, Bool.not_true, Bool.false_eq_true, if_false]
    rw [List.map_eq_nil_iff]
    constructor
    · intro h a ha
      have hsort : List.insertionSort scoredRel (anyMatchScored morph articles query_words) = [] := by
        rcases List.take_eq_nil_iff.mp h with h0 | h0
        · omega
        · exact h0
      have hany : anyMatchScored morph articles query_words = [] := by
        have hperm := List.perm_insertionSort scoredRel (anyMatchScored morph articles query_words)
        rw [hsort] at hperm
        exact hperm.symm.eq_nil
      have := (List.filterMap_eq_nil_iff.mp hany) a ha
      simp only at this
      split at this
      · exact absurd this (by simp)
      · next hcnt => omega
    · intro h
      have hany : anyMatchScored morph articles query_words = [] := by
        apply List.filterMap_eq_nil_iff.mpr
        intro a ha
        simp only
        rw [if_neg]
        simp [h a ha]
      rw [hany]
      simp [List.insertionSort]
  · simp only [List.isEmpty_cons, Bool.not_false, if_true]
    constructor
    · intro h
      exfalso
      have hperm := (List.perm_insertionSort scoredRel (p :: fullTail)).length_eq
      have hcong := congrArg List.length h
      rw [List.length_map, List.length_take, hperm] at hcong
      simp only [List.length_cons, List.length_nil] at hcong
      omega
    · intro h
      exfalso
      have hp : p ∈ fullMatchScored morph articles query_words := by
        rw [hfull]; exact List.mem_cons_self _ _
      obtain ⟨a, ha, hfa⟩ := List.mem_filterMap.mp hp
      simp only at hfa
      split at hfa
      · next hall =>
        rcases query_words with _ | ⟨w, ws⟩
        · exact hq rfl
        · have hw : _word_matches morph w (searchable a) = true := by
            have := List.all_eq_true.mp hall w (List.mem_cons_self _ _)
            simpa using this
          have hpos : 0 < _count_matches morph (w :: ws) (searchable a) := by
            unfold _count_matches
            rw [List.countP_pos_iff]
            exact ⟨w, List.mem_cons_self _ _, hw⟩
          rw [h a ha] at hpos
          omega
      · exact Option.noConfusion hfa

/-- C3 (amended): an error from the RSS source degrades it to an empty
contribution without aborting the search, and the overall search returns an
empty result exactly when the merged pool is empty, no terms survive
normalization, or no pooled record matches any query term. -/
theorem search_news_source_degradation (morph : Option (String → String))
    (rssRes : Except String (List Article))
    (sections : List (List (Except String (List Anchor))))
    (e : String) (query : String) (limit : Nat) :
    (search_okolica_news morph (.error e) sections query limit
      = search_okolica_news morph (.ok []) sections query limit) ∧
    (search_okolica_news morph rssRes sections query limit = [] ↔
      (_merge_okolica_sources (_fetch_okolica_rss rssRes) (okolicaHtmlArticles sections) [] = [] ∨
       _extract_and_expand_query morph query = [] ∨
       ∀ a ∈ _merge_okolica_sources (_fetch_okolica_rss rssRes) (okolicaHtmlArticles sections) [],
         _count_matches morph (_extract_and_expand_query morph query) (searchable a) = 0)) := by
  constructor
  · rfl
  · simp only [search_okolica_news]
    rcases hp : _merge_okolica_sources (_fetch_okolica_rss rssRes)
        (okolicaHtmlArticles sections) [] with _ | ⟨a0, arest⟩
    · simp
    · simp only [List.isEmpty_cons, Bool.false_eq_true, if_false]
      rcases hq : _extract_and_expand_query morph query with _ | ⟨w, ws⟩
      · simp [run_search_empty_query]
      · have hlim : 1 ≤ (if limit = 0 then ARTICLES_LIMIT_SEARCH else limit) := by
          split
          · decide
          · next h => omega
        rw [run_search_eq_nil_iff morph (a0 :: arest) (w :: ws) _ (by simp) hlim]
        simp

/-- Counterexample to C3 as stated: one successful source yields a
non-empty pool and the term `xyz` survives normalization, yet the search
returns the empty list (no record matches any term), refuting the claim
that an empty result occurs only when all pools are empty or no terms
survive. -/
theorem search_news_empty_only_counterexample :
    _merge_okolica_sources (_fetch_okolica_rss (.ok [⟨"abc", "u", "", ""⟩]))
      (okolicaHtmlArticles []) [] ≠ [] ∧
    _extract_and_expand_query none "xyz" ≠ [] ∧
    search_okolica_news none (.ok [⟨"abc", "u", "", ""⟩]) [] "xyz" 10 = [] := by
  exact ⟨by decide, by decide, by decide⟩

/-- Witness for C3 at concrete inputs. -/
theorem search_news_source_degradation_witness :
    (search_okolica_news none (.error "boom") [] "стихи" 10
      = search_okolica_news none (.ok []) [] "стихи" 10) ∧
    (search_okolica_news none (.ok []) [] "стихи" 10 = [] ↔
      (_merge_okolica_sources (_fetch_okolica_rss (.ok [])) (okolicaHtmlArticles []) [] = [] ∨
       _extract_and_expand_query none "стихи" = [] ∨
       ∀ a ∈ _merge_okolica_sources (_fetch_okolica_rss (.ok [])) (okolicaHtmlArticles []) [],
         _count_matches none (_extract_and_expand_query none "стихи") (searchable a) = 0)) :=
  search_news_source_degradation none (.ok []) [] "boom" "стихи" 10

/-- Helper: extending the seen set and the result list by the same element
preserves the seen-equals-result-membership invariant of
`_expand_with_synonyms`. -/
theorem inv_extend {seen result : List String}
    (h : ∀ s, s ∈ seen ↔ s ∈ result) (x : String) :
    ∀ s, s ∈ (x :: seen) ↔ s ∈ result ++ [x] := by
  intro s
  constructor
  · intro hs
    rcases List.mem_cons.mp hs with rfl | hs2
    · exact List.mem_append_right _ (List.mem_singleton_self _)
    · exact List.mem_append_left _ ((h s).mp hs2)
  · intro hs
    rcases List.mem_append.mp hs with hs2 | hs2
    · exact List.mem_cons_of_mem _ ((h s).mpr hs2)
    · rw [List.mem_singleton] at hs2
      exact hs2 ▸ List.mem_cons_self _ _

/-- `addSyns` only appends: the previous result list is a prefix. -/
theorem addSyns_res_mono : ∀ (syns seen result : List String),
    ∃ t, (addSyns seen result syns).2 = result ++ t
  | [], seen, result => ⟨[], by simp [addSyns]⟩
  | s :: rest, seen, result => by
    unfold addSyns
    split
    · obtain ⟨t, ht⟩ := addSyns_res_mono rest (s :: seen) (result ++ [s])
      exact ⟨[s] ++ t, by rw [ht, List.append_assoc]⟩
    · exact addSyns_res_mono rest seen result

/-- `addSyns` keeps seen and result with the same members. -/
theorem addSyns_inv : ∀ (syns seen result : List String),
    (∀ s, s ∈ seen ↔ s ∈ result) →
    ∀ s, s ∈ (addSyns seen result syns).1 ↔ s ∈ (addSyns seen result syns).2
  | [], seen, result, h => h
  | s :: rest, seen, result, h => by
    unfold addSyns
    split
    · exact addSyns_inv rest _ _ (inv_extend h s)
    · exact addSyns_inv rest seen result h

/-- Everything `addSyns` appends is a synonym of length ≥ 2 from its input
list. -/
theorem addSyns_provenance : ∀ (syns seen result : List String) (e : String),
    e ∈ (addSyns seen result syns).2 → e ∈ result ∨ (e ∈ syns ∧ 2 ≤ e.length)
  | [], _, _, e, h => Or.inl h
  | s :: rest, seen, result, e, h => by
    unfold addSyns at h
    split at h
    · next hc =>
      rcases addSyns_provenance rest _ _ e h with h2 | h2
      · rcases List.mem_append.mp h2 with h3 | h3
        · exact Or.inl h3
        · rw [List.mem_singleton] at h3
          subst h3
          exact Or.inr ⟨List.mem_cons_self _ _, hc.2⟩
      · exact Or.inr ⟨List.mem_cons_of_mem _ h2.1, h2.2⟩
    · rcases addSyns_provenance rest _ _ e h with h2 | h2
      · exact Or.inl h2
      · exact Or.inr ⟨List.mem_cons_of_mem _ h2.1, h2.2⟩

/-- Every synonym of length ≥ 2 ends up in the result of `addSyns` (it is
appended, or it was already present via the seen set). -/
theorem addSyns_coverage : ∀ (syns seen result : List String),
    (∀ s, s ∈ seen ↔ s ∈ result) →
    ∀ s ∈ syns, 2 ≤ s.length → s ∈ (addSyns seen result syns).2
  | [], _, _, _, s, hs, _ => absurd hs (List.not_mem_nil s)
  | s0 :: rest, seen, result, hinv, s, hs, hlen => by
    unfold addSyns
    split
    · next hc =>
      rcases List.mem_cons.mp hs with rfl | hs2
      · obtain ⟨t, ht⟩ := addSyns_res_mono rest (s :: seen) (result ++ [s])
        rw [ht]
        exact List.mem_append_left _
          (List.mem_append_right _ (List.mem_singleton_self _))
      · exact addSyns_coverage rest _ _ (inv_extend hinv s0) s hs2 hlen
    · next hc =>
      rcases List.mem_cons.mp hs with rfl | hs2
      · have hseen : s ∈ seen := by
          by_contra hns
          exact hc ⟨hns, hlen⟩
        obtain ⟨t, ht⟩ := addSyns_res_mono rest seen result
        rw [ht]
        exact List.mem_append_left _ ((hinv s).mp hseen)
      · exact addSyns_coverage rest seen result hinv s hs2 hlen

/-- `addSyns` preserves duplicate-freedom of the result list. -/
theorem addSyns_nodup : ∀ (syns seen result : List String),
    (∀ s, s ∈ seen ↔ s ∈ result) → result.Nodup →
    (addSyns seen result syns).2.Nodup
  | [], _, _, _, hnd => hnd
  | s :: rest, seen, result, hinv, hnd => by
    unfold addSyns
    split
    · next hc =>
      apply addSyns_nodup rest _ _ (inv_extend hinv s)
      have hs : s ∉ result := fun h => hc.1 ((hinv s).mpr h)
      simp [List.nodup_append, hnd, hs]
    · exact addSyns_nodup rest seen result hinv hnd

/-- Table fact: a word that is not a key of the synonym table occurs in the
value list of at most one entry (every word listed under two entries is
itself a key). -/
theorem synonyms_value_unique :
    ∀ p ∈ _SYNONYMS, ∀ w ∈ p.2, synFind w = none →
      ∀ q ∈ _SYNONYMS, w ∈ q.2 → q = p := by decide

/-- One expansion step only appends to the result list. -/
theorem expandStep_res_mono (st : List String × List String) (w : String) :
    ∃ t, (expandStep st w).2 = st.2 ++ t := by
  obtain ⟨seen, result⟩ := st
  simp only [expandStep]
  cases synFind w with
  | some syns => exact addSyns_res_mono syns seen result
  | none =>
    cases _SYNONYMS.find? (fun p => p.2.contains w && !(seen.contains p.1)) with
    | some p => exact ⟨[p.1], rfl⟩
    | none => exact ⟨[], by simp⟩

/-- One expansion step preserves the seen-equals-result invariant. -/
theorem expandStep_inv (st : List String × List String) (w : String)
    (hinv : ∀ s, s ∈ st.1 ↔ s ∈ st.2) :
    ∀ s, s ∈ (expandStep st w).1 ↔ s ∈ (expandStep st w).2 := by
  obtain ⟨seen, result⟩ := st
  simp only [expandStep]
  cases synFind w with
  | some syns => exact addSyns_inv syns seen result hinv
  | none =>
    cases _SYNONYMS.find? (fun p => p.2.contains w && !(seen.contains p.1)) with
    | some p => exact inv_extend hinv p.1
    | none => exact hinv

/-- Everything one step appends is justified by the processed word: an
eligible synonym of it, or the key of a table entry listing it. -/
theorem expandStep_provenance (st : List String × List String) (w e : String)
    (h : e ∈ (expandStep st w).2) :
    e ∈ st.2 ∨
      (∃ syns, synFind w = some syns ∧ e ∈ syns ∧ 2 ≤ e.length) ∨
      (synFind w = none ∧ ∃ p ∈ _SYNONYMS, p.1 = e ∧ w ∈ p.2) := by
  obtain ⟨seen, result⟩ := st
  simp only [expandStep] at h
  cases hsf : synFind w with
  | some syns =>
    rw [hsf] at h
    rcases addSyns_provenance syns seen result e h with h2 | h2
    · exact Or.inl h2
    · exact Or.inr (Or.inl ⟨syns, rfl, h2⟩)
  | none =>
    rw [hsf] at h
    cases hf : _SYNONYMS.find? (fun p => p.2.contains w && !(seen.contains p.1)) with
    | some q =>
      rw [hf] at h
      rcases List.mem_append.mp h with h2 | h2
      · exact Or.inl h2
      · rw [List.mem_singleton] at h2
        have hq := List.mem_of_find?_eq_some hf
        have hpred := List.find?_some hf
        simp only [Bool.and_eq_true] at hpred
        refine Or.inr (Or.inr ⟨rfl, q, hq, h2.symm, ?_⟩)
        have := hpred.1
        simpa using this
    | none =>
      rw [hf] at h
      exact Or.inl h

/-- Key branch coverage: each length-≥2 synonym of a key word is in the
step's result. -/
theorem expandStep_coverage_key (st : List String × List String) (w : String)
    (hinv : ∀ s, s ∈ st.1 ↔ s ∈ st.2) (syns : List String)
    (hsf : synFind w = some syns) :
    ∀ s ∈ syns, 2 ≤ s.length → s ∈ (expandStep st w).2 := by
  obtain ⟨seen, result⟩ := st
  simp only [expandStep, hsf]
  exact addSyns_coverage syns seen result hinv

/-- Value branch coverage: for a non-key word listed in some entry, that
entry's key is in the step's result (using the at-most-one-entry table
fact). -/
theorem expandStep_coverage_val (st : List String × List String) (w : String)
    (hinv : ∀ s, s ∈ st.1 ↔ s ∈ st.2) (hsf : synFind w = none) :
    ∀ p ∈ _SYNONYMS, w ∈ p.2 → p.1 ∈ (expandStep st w).2 := by
  obtain ⟨seen, result⟩ := st
  intro p hp hwp
  simp only [expandStep, hsf]
  cases hf : _SYNONYMS.find? (fun q => q.2.contains w && !(seen.contains q.1)) with
  | some q =>
    have hq := List.mem_of_find?_eq_some hf
    have hpred := List.find?_some hf
    simp only [Bool.and_eq_true] at hpred
    have hqw : w ∈ q.2 := by simpa using hpred.1
    have : q = p := synonyms_value_unique p hp w hwp hsf q hq hqw
    subst this
    exact List.mem_append_right _ (List.mem_singleton_self _)
  | none =>
    have hall := List.find?_eq_none.mp hf p hp
    simp only [Bool.and_eq_true, not_and, Bool.not_eq_true'] at hall
    have hcw : p.2.contains w = true := by simpa using hwp
    have hseen : p.1 ∈ seen := by
      have := hall hcw
      simpa using this
    exact (hinv p.1).mp hseen

/-- One expansion step preserves duplicate-freedom. -/
theorem expandStep_nodup (st : List String × List String) (w : String)
    (hinv : ∀ s, s ∈ st.1 ↔ s ∈ st.2) (hnd : st.2.Nodup) :
    (expandStep st w).2.Nodup := by
  obtain ⟨seen, result⟩ := st
  simp only [expandStep]
  cases synFind w with
  | some syns => exact addSyns_nodup syns seen result hinv hnd
  | none =>
    cases hf : _SYNONYMS.find? (fun q => q.2.contains w && !(seen.contains q.1)) with
    | some q =>
      have hpred := List.find?_some hf
      simp only [Bool.and_eq_true, Bool.not_eq_true'] at hpred
      have hq : q.1 ∉ result := by
        intro hmem
        have hseen : q.1 ∈ seen := (hinv q.1).mpr hmem
        have hfa := hpred.2
        rw [List.contains_eq_any_beq] at hfa
        have := List.any_eq_false.mp hfa q.1 hseen
        simp at this
      simp [List.nodup_append, hnd, hq]
    | none => exact hnd

/-- The word loop only appends to the result list. -/
theorem foldl_expand_res_mono : ∀ (ws : List String) (st : List String × List String),
    ∃ t, (ws.foldl expandStep st).2 = st.2 ++ t
  | [], st => ⟨[], by simp⟩
  | w :: ws, st => by
    rw [List.foldl_cons]
    obtain ⟨t1, ht1⟩ := expandStep_res_mono st w
    obtain ⟨t2, ht2⟩ := foldl_expand_res_mono ws (expandStep st w)
    exact ⟨t1 ++ t2, by rw [ht2, ht1, List.append_assoc]⟩

/-- The word loop preserves the seen-equals-result invariant. -/
theorem foldl_expand_inv : ∀ (ws : List String) (st : List String × List String),
    (∀ s, s ∈ st.1 ↔ s ∈ st.2) →
    ∀ s, s ∈ (ws.foldl expandStep st).1 ↔ s ∈ (ws.foldl expandStep st).2
  | [], _, h => h
  | w :: ws, st, h => by
    rw [List.foldl_cons]
    exact foldl_expand_inv ws _ (expandStep_inv st w h)

/-- Everything the word loop appends is justified by some input word. -/
theorem foldl_expand_provenance : ∀ (ws : List String) (st : List String × List String)
    (e : String), e ∈ (ws.foldl expandStep st).2 →
    e ∈ st.2 ∨ ∃ w ∈ ws,
      (∃ syns, synFind w = some syns ∧ e ∈ syns ∧ 2 ≤ e.length) ∨
      (synFind w = none ∧ ∃ p ∈ _SYNONYMS, p.1 = e ∧ w ∈ p.2)
  | [], _, _, h => Or.inl h
  | w :: ws, st, e, h => by
    rw [List.foldl_cons] at h
    rcases foldl_expand_provenance ws _ e h with h2 | ⟨w2, hw2, h2⟩
    · rcases expandStep_provenance st w e h2 with h3 | h3
      · exact Or.inl h3
      · exact Or.inr ⟨w, List.mem_cons_self _ _, h3⟩
    · exact Or.inr ⟨w2, List.mem_cons_of_mem _ hw2, h2⟩

/-- The word loop emits every eligible synonym of every key word. -/
theorem foldl_expand_coverage_key : ∀ (ws : List String) (st : List String × List String),
    (∀ s, s ∈ st.1 ↔ s ∈ st.2) →
    ∀ w ∈ ws, ∀ syns, synFind w = some syns →
    ∀ s ∈ syns, 2 ≤ s.length → s ∈ (ws.foldl expandStep st).2
  | [], _, _, w, hw, _, _, _, _, _ => absurd hw (List.not_mem_nil w)
  | w0 :: ws, st, hinv, w, hw, syns, hsf, s, hs, hlen => by
    rw [List.foldl_cons]
    rcases List.mem_cons.mp hw with rfl | hw2
    · have hmem := expandStep_coverage_key st w hinv syns hsf s hs hlen
      obtain ⟨t, ht⟩ := foldl_expand_res_mono ws (expandStep st w)
      rw [ht]
      exact List.mem_append_left _ hmem
    · exact foldl_expand_coverage_key ws _ (expandStep_inv st w0 hinv) w hw2 syns hsf s hs hlen

/-- The word loop emits the owning key for every non-key word listed in a
table entry. -/
theorem foldl_expand_coverage_val : ∀ (ws : List String) (st : List String × List String),
    (∀ s, s ∈ st.1 ↔ s ∈ st.2) →
    ∀ w ∈ ws, synFind w = none →
    ∀ p ∈ _SYNONYMS, w ∈ p.2 → p.1 ∈ (ws.foldl expandStep st).2
  | [], _, _, w, hw, _, _, _, _ => absurd hw (List.not_mem_nil w)
  | w0 :: ws, st, hinv, w, hw, hsf, p, hp, hwp => by
    rw [List.foldl_cons]
    rcases List.mem_cons.mp hw with rfl | hw2
    · have hmem := expandStep_coverage_val st w hinv hsf p hp hwp
      obtain ⟨t, ht⟩ := foldl_expand_res_mono ws (expandStep st w)
      rw [ht]
      exact List.mem_append_left _ hmem
    · exact foldl_expand_coverage_val ws _ (expandStep_inv st w0 hinv) w hw2 hsf p hp hwp

/-- The word loop preserves duplicate-freedom. -/
theorem foldl_expand_nodup : ∀ (ws : List String) (st : List String × List String),
    (∀ s, s ∈ st.1 ↔ s ∈ st.2) → st.2.Nodup → (ws.foldl expandStep st).2.Nodup
  | [], _, _, hnd => hnd
  | w :: ws, st, hinv, hnd => by
    rw [List.foldl_cons]
    exact foldl_expand_nodup ws _ (expandStep_inv st w hinv) (expandStep_nodup st w hinv hnd)

/-- C5: on a duplicate-free lemma list, `_expand_with_synonyms` keeps the
input as a prefix and appends, duplicate-free, exactly the justified
synonyms: for each input lemma that is a table key, its listed synonyms of
length ≥ 2 (all of them appear; nothing else from that branch); for each
input lemma appearing as a value of a table entry, that entry's key; and
every appended element is justified by an *input* word only (one pass, no
recursive expansion). -/
theorem expand_with_synonyms_spec (words : List String) (hnd : words.Nodup) :
    (∃ extra, _expand_with_synonyms words = words ++ extra) ∧
    (_expand_with_synonyms words).Nodup ∧
    (∀ e ∈ _expand_with_synonyms words, e ∈ words ∨
      (∃ w ∈ words, ∃ syns, synFind w = some syns ∧ e ∈ syns ∧ 2 ≤ e.length) ∨
      (∃ w ∈ words, synFind w = none ∧ ∃ p ∈ _SYNONYMS, p.1 = e ∧ w ∈ p.2)) ∧
    (∀ w ∈ words, ∀ syns, synFind w = some syns →
      ∀ s ∈ syns, 2 ≤ s.length → s ∈ _expand_with_synonyms words) ∧
    (∀ w ∈ words, synFind w = none →
      ∀ p ∈ _SYNONYMS, w ∈ p.2 → p.1 ∈ _expand_with_synonyms words) := by
  have hinv : ∀ s, s ∈ (words, words).1 ↔ s ∈ (words, words).2 := fun s => Iff.rfl
  refine ⟨?_, ?_, ?_, ?_, ?_⟩
  · exact foldl_expand_res_mono words (words, words)
  · exact foldl_expand_nodup words (words, words) hinv hnd
  · intro e he
    rcases foldl_expand_provenance words (words, words) e he with h | ⟨w, hw, h⟩
    · exact Or.inl h
    · rcases h with h | h
      · exact Or.inr (Or.inl ⟨w, hw, h⟩)
      · exact Or.inr (Or.inr ⟨w, hw, h⟩)
  · intro w hw syns hsf s hs hlen
    exact foldl_expand_coverage_key words (words, words) hinv w hw syns hsf s hs hlen
  · intro w hw hsf p hp hwp
    exact foldl_expand_coverage_val words (words, words) hinv w hw hsf p hp hwp

/-- Witness for C5 on a concrete duplicate-free input exercising both
branches. -/
theorem expand_with_synonyms_spec_witness :
    (∃ extra, _expand_with_synonyms ["история", "школа"] = ["история", "школа"] ++ extra) ∧
    (_expand_with_synonyms ["история", "школа"]).Nodup ∧
    (∀ e ∈ _expand_with_synonyms ["история", "школа"], e ∈ ["история", "школа"] ∨
      (∃ w ∈ ["история", "школа"], ∃ syns, synFind w = some syns ∧ e ∈ syns ∧ 2 ≤ e.length) ∨
      (∃ w ∈ ["история", "школа"], synFind w = none ∧ ∃ p ∈ _SYNONYMS, p.1 = e ∧ w ∈ p.2)) ∧
    (∀ w ∈ ["история", "школа"], ∀ syns, synFind w = some syns →
      ∀ s ∈ syns, 2 ≤ s.length → s ∈ _expand_with_synonyms ["история", "школа"]) ∧
    (∀ w ∈ ["история", "школа"], synFind w = none →
      ∀ p ∈ _SYNONYMS, w ∈ p.2 → p.1 ∈ _expand_with_synonyms ["история", "школа"]) :=
  expand_with_synonyms_spec ["история", "школа"] (by decide)

/-- Every entry of the RSS insertion loop's map is an RSS record stored
under its canonical URL (or was already in the initial map). -/
theorem foldl_upsert_mem : ∀ (l : List Article) (m : List (String × Article))
    (p : String × Article),
    p ∈ l.foldl (fun m a => upsert m (canonUrl a.url) a) m →
    p ∈ m ∨ (p.2 ∈ l ∧ p.1 = canonUrl p.2.url)
  | [], _, _, h => Or.inl h
  | a :: l, m, p, h => by
    rw [List.foldl_cons] at h
    rcases foldl_upsert_mem l _ p h with h2 | h2
    · unfold upsert at h2
      split at h2
      · rcases List.mem_map.mp h2 with ⟨q, hq, hqe⟩
        by_cases hqa : q.1 = canonUrl a.url
        · rw [if_pos (by simpa using hqa)] at hqe
          subst hqe
          exact Or.inr ⟨List.mem_cons_self _ _, rfl⟩
        · rw [if_neg (by simpa using hqa)] at hqe
          subst hqe
          exact Or.inl hq
      · rcases List.mem_append.mp h2 with h3 | h3
        · exact Or.inl h3
        · rw [List.mem_singleton] at h3
          subst h3
          exact Or.inr ⟨List.mem_cons_self _ _, rfl⟩
    · exact Or.inr ⟨List.mem_cons_of_mem _ h2.1, h2.2⟩

/-- `upsert` leaves the key list unchanged on overwrite and appends the new
key otherwise. -/
theorem upsert_keys (m : List (String × Article)) (k : String) (a : Article) :
    (upsert m k a).map Prod.fst =
      if m.any (fun p => p.1 == k) then m.map Prod.fst
      else m.map Prod.fst ++ [k] := by
  unfold upsert
  split
  · next hany =>
    rw [List.map_map]
    apply List.map_congr_left
    intro p hp
    simp only [Function.comp_apply]
    split
    · next h => simp only [beq_iff_eq] at h; exact h.symm
    · rfl
  · next hany =>
    simp

/-- The RSS insertion loop keeps the map's keys duplicate-free. -/
theorem foldl_upsert_keys_nodup : ∀ (l : List Article) (m : List (String × Article)),
    (m.map Prod.fst).Nodup →
    ((l.foldl (fun m a => upsert m (canonUrl a.url) a) m).map Prod.fst).Nodup
  | [], _, h => h
  | a :: l, m, h => by
    rw [List.foldl_cons]
    apply foldl_upsert_keys_nodup l
    rw [upsert_keys]
    split
    · exact h
    · next hany =>
      have hnk : canonUrl a.url ∉ m.map Prod.fst := by
        intro hmem
        rcases List.mem_map.mp hmem with ⟨q, hq, hqe⟩
        have hf := List.any_eq_false.mp (eq_false_of_ne_true hany) q hq
        simp [hqe] at hf
      simp [List.nodup_append, h, hnk]

/-- The RSS insertion loop's keys are exactly the initial keys plus the
canonical URLs of the inserted records. -/
theorem foldl_upsert_keys_mem : ∀ (l : List Article) (m : List (String × Article)) (u : String),
    u ∈ (l.foldl (fun m a => upsert m (canonUrl a.url) a) m).map Prod.fst ↔
      u ∈ m.map Prod.fst ∨ ∃ a ∈ l, canonUrl a.url = u
  | [], m, u => by simp
  | a :: l, m, u => by
    rw [List.foldl_cons, foldl_upsert_keys_mem l _ u, upsert_keys]
    split
    · next hany =>
      have hk : canonUrl a.url ∈ m.map Prod.fst := by
        rcases List.any_eq_true.mp hany with ⟨q, hq, hqe⟩
        simp only [beq_iff_eq] at hqe
        exact hqe ▸ List.mem_map_of_mem Prod.fst hq
      constructor
      · rintro (h | ⟨b, hb, hbe⟩)
        · exact Or.inl h
        · exact Or.inr ⟨b, List.mem_cons_of_mem _ hb, hbe⟩
      · rintro (h | ⟨b, hb, hbe⟩)
        · exact Or.inl h
        · rcases List.mem_cons.mp hb with rfl | hb2
          · exact Or.inl (hbe ▸ hk)
          · exact Or.inr ⟨b, hb2, hbe⟩
    · constructor
      · rintro (h | ⟨b, hb, hbe⟩)
        · rcases List.mem_append.mp h with h2 | h2
          · exact Or.inl h2
          · rw [List.mem_singleton] at h2
            exact Or.inr ⟨a, List.mem_cons_self _ _, h2.symm⟩
        · exact Or.inr ⟨b, List.mem_cons_of_mem _ hb, hbe⟩
      · rintro (h | ⟨b, hb, hbe⟩)
        · exact Or.inl (List.mem_append_left _ h)
        · rcases List.mem_cons.mp hb with rfl | hb2
          · exact Or.inl (List.mem_append_right _ (by simp [hbe]))
          · exact Or.inr ⟨b, hb2, hbe⟩

/-- Structure of the HTML insertion loop: it appends, in first-seen order
(a sublist of the input), exactly the records whose canonical URL is not
already a key, each stored under its canonical URL, with fresh
duplicate-free keys; the final keys are the initial ones plus the HTML
records' canonical URLs. -/
theorem foldl_insertIfAbsent_spec : ∀ (l : List Article) (m : List (String × Article)),
    ∃ Bp : List (String × Article),
      l.foldl (fun m a => insertIfAbsent m (canonUrl a.url) a) m = m ++ Bp ∧
      (Bp.map Prod.snd).Sublist l ∧
      (∀ p ∈ Bp, p.1 = canonUrl p.2.url ∧ p.1 ∉ m.map Prod.fst) ∧
      (Bp.map Prod.fst).Nodup ∧
      (∀ u, u ∈ (m ++ Bp).map Prod.fst ↔
        u ∈ m.map Prod.fst ∨ ∃ a ∈ l, canonUrl a.url = u)
  | [], m => ⟨[], by simp⟩
  | a :: l, m => by
    rw [List.foldl_cons]
    by_cases hany : (m.any fun p => p.1 == canonUrl a.url) = true
    · have hstep : insertIfAbsent m (canonUrl a.url) a = m := by
        unfold insertIfAbsent
        rw [if_pos hany]
      rw [hstep]
      obtain ⟨Bp, h1, h2, h3, h4, h5⟩ := foldl_insertIfAbsent_spec l m
      have hk : canonUrl a.url ∈ m.map Prod.fst := by
        rcases List.any_eq_true.mp hany with ⟨q, hq, hqe⟩
        simp only [beq_iff_eq] at hqe
        exact hqe ▸ List.mem_map_of_mem Prod.fst hq
      refine ⟨Bp, h1, h2.cons a, h3, h4, ?_⟩
      intro u
      rw [h5 u]
      constructor
      · rintro (h | ⟨b, hb, hbe⟩)
        · exact Or.inl h
        · exact Or.inr ⟨b, List.mem_cons_of_mem _ hb, hbe⟩
      · rintro (h | ⟨b, hb, hbe⟩)
        · exact Or.inl h
        · rcases List.mem_cons.mp hb with rfl | hb2
          · exact Or.inl (hbe ▸ hk)
          · exact Or.inr ⟨b, hb2, hbe⟩
    · have hstep : insertIfAbsent m (canonUrl a.url) a = m ++ [(canonUrl a.url, a)] := by
        unfold insertIfAbsent
        rw [if_neg hany]
      rw [hstep]
      obtain ⟨Bp, h1, h2, h3, h4, h5⟩ := foldl_insertIfAbsent_spec l (m ++ [(canonUrl a.url, a)])
      have hnk : canonUrl a.url ∉ m.map Prod.fst := by
        intro hmem
        rcases List.mem_map.mp hmem with ⟨q, hq, hqe⟩
        have hf := List.any_eq_false.mp (eq_false_of_ne_true hany) q hq
        simp [hqe] at hf
      refine ⟨(canonUrl a.url, a) :: Bp, ?_, ?_, ?_, ?_, ?_⟩
      · rw [h1]
        simp
      · exact h2.cons₂ a
      · intro p hp
        rcases List.mem_cons.mp hp with rfl | hp2
        · exact ⟨rfl, hnk⟩
        · have := h3 p hp2
          refine ⟨this.1, fun hmem => this.2 ?_⟩
          rw [List.map_append]
          exact List.mem_append_left _ hmem
      · rw [List.map_cons, List.nodup_cons]
        refine ⟨fun hmem => ?_, h4⟩
        rcases List.mem_map.mp hmem with ⟨q, hq, hqe⟩
        have := (h3 q hq).2
        rw [List.map_append] at this
        exact this (List.mem_append_right _ (by simp [hqe]))
      · intro u
        have h5u := h5 u
        rw [List.map_append, List.map_append] at h5u
        simp only [List.map_cons, List.map_nil] at h5u
        constructor
        · intro h
          rw [List.map_append, List.map_cons] at h
          rcases List.mem_append.mp h with h | h
          · exact Or.inl h
          · rcases List.mem_cons.mp h with rfl | h
            · exact Or.inr ⟨a, List.mem_cons_self _ _, rfl⟩
            · have : u ∈ (m ++ [(canonUrl a.url, a)] ++ Bp).map Prod.fst := by
                rw [List.map_append, List.map_append]
                exact List.mem_append_right _ h
              rcases (h5 u).mp this with h2u | ⟨b, hb, hbe⟩
              · rw [List.map_append] at h2u
                rcases List.mem_append.mp h2u with h3u | h3u
                · exact Or.inl h3u
                · simp only [List.map_cons, List.map_nil, List.mem_singleton] at h3u
                  exact Or.inr ⟨a, List.mem_cons_self _ _, h3u.symm⟩
              · exact Or.inr ⟨b, List.mem_cons_of_mem _ hb, hbe⟩
        · intro h
          rw [List.map_append, List.map_cons]
          rcases h with h | ⟨b, hb, hbe⟩
          · exact List.mem_append_left _ h
          · rcases List.mem_cons.mp hb with rfl | hb2
            · refine List.mem_append_right _ ?_
              rw [← hbe]
              exact List.mem_cons_self _ _
            · have : u ∈ (m ++ [(canonUrl a.url, a)] ++ Bp).map Prod.fst :=
                (h5 u).mpr (Or.inr ⟨b, hb2, hbe⟩)
              rw [List.map_append, List.map_append] at this
              rcases List.mem_append.mp this with h2u | h2u
              · rcases List.mem_append.mp h2u with h3u | h3u
                · exact List.mem_append_left _ h3u
                · simp only [List.map_cons, List.map_nil, List.mem_singleton] at h3u
                  exact List.mem_append_right _ (h3u ▸ List.mem_cons_self _ _)
              · exact List.mem_append_right _ (List.mem_cons_of_mem _ h2u)

/-- In a map with duplicate-free keys, filtering by a present key yields
exactly one entry. -/
theorem filter_key_singleton : ∀ (L : List (String × Article)) (u : String),
    (L.map Prod.fst).Nodup → u ∈ L.map Prod.fst →
    ∃ q ∈ L, L.filter (fun p => p.1 == u) = [q]
  | [], u, _, h => absurd h (by simp)
  | p :: L, u, hnd, hmem => by
    rw [List.map_cons, List.nodup_cons] at hnd
    by_cases hp : p.1 = u
    · refine ⟨p, List.mem_cons_self _ _, ?_⟩
      rw [List.filter_cons, if_pos (by simp [hp])]
      have hrest : L.filter (fun q => q.1 == u) = [] := by
        apply List.filter_eq_nil_iff.mpr
        intro q hq
        simp only [beq_iff_eq]
        intro hqu
        exact hnd.1 (hp ▸ hqu ▸ List.mem_map_of_mem Prod.fst hq)
      rw [hrest]
    · have hmem2 : u ∈ L.map Prod.fst := by
        rw [List.map_cons, List.mem_cons] at hmem
        rcases hmem with h | h
        · exact absurd h.symm hp
        · exact h
      obtain ⟨q, hq, hfil⟩ := filter_key_singleton L u hnd.2 hmem2
      refine ⟨q, List.mem_cons_of_mem _ hq, ?_⟩
      rw [List.filter_cons, if_neg (by simp [hp]), hfil]

/-- C2: the merged pool is the deduplicated RSS records, then the
first-seen HTML records whose canonical URL no RSS record shares, then the
gazeta records appended verbatim (no URL deduplication); canonical URLs are
unique across the RSS/HTML part and cover exactly the input URLs, and for
every canonical URL shared between an RSS and an HTML record the pool keeps
exactly one record with that URL — an RSS one. -/
theorem merge_sources_dedup (rss html gazeta : List Article) :
    ∃ A B : List Article,
      _merge_okolica_sources rss html gazeta = A ++ B ++ gazeta ∧
      (∀ a ∈ A, a ∈ rss) ∧
      (∀ b ∈ B, b ∈ html ∧ canonUrl b.url ∉ rss.map (fun r => canonUrl r.url)) ∧
      B.Sublist html ∧
      ((A ++ B).map (fun x => canonUrl x.url)).Nodup ∧
      (∀ u, u ∈ (A ++ B).map (fun x => canonUrl x.url) ↔
        u ∈ (rss ++ html).map (fun x => canonUrl x.url)) ∧
      (∀ u, (∃ r ∈ rss, canonUrl r.url = u) → (∃ h ∈ html, canonUrl h.url = u) →
        ∃ a ∈ rss, canonUrl a.url = u ∧
          (A ++ B).filter (fun x => canonUrl x.url == u) = [a]) := by
  obtain ⟨Bp, h1, h2, h3, h4, h5⟩ :=
    foldl_insertIfAbsent_spec html (rss.foldl (fun m a => upsert m (canonUrl a.url) a) [])
  set m1 := rss.foldl (fun m a => upsert m (canonUrl a.url) a) [] with hm1
  have hm1mem : ∀ p ∈ m1, p.2 ∈ rss ∧ p.1 = canonUrl p.2.url := by
    intro p hp
    rcases foldl_upsert_mem rss [] p hp with h | h
    · simp at h
    · exact h
  have hm1nd : (m1.map Prod.fst).Nodup := foldl_upsert_keys_nodup rss [] (by simp)
  have hm1k : ∀ u, u ∈ m1.map Prod.fst ↔ ∃ a ∈ rss, canonUrl a.url = u := by
    intro u
    rw [foldl_upsert_keys_mem rss [] u]
    simp
  have hm2mem : ∀ p ∈ m1 ++ Bp, p.1 = canonUrl p.2.url := by
    intro p hp
    rcases List.mem_append.mp hp with h | h
    · exact (hm1mem p h).2
    · exact (h3 p h).1
  have hm2nd : ((m1 ++ Bp).map Prod.fst).Nodup := by
    rw [List.map_append, List.nodup_append]
    refine ⟨hm1nd, h4, ?_⟩
    intro u hu1 hu2
    rcases List.mem_map.mp hu2 with ⟨q, hq, hqe⟩
    exact (h3 q hq).2 (hqe ▸ hu1)
  have hkeys2 : ((m1 ++ Bp).map Prod.snd).map (fun x => canonUrl x.url)
      = (m1 ++ Bp).map Prod.fst := by
    rw [List.map_map]
    apply List.map_congr_left
    intro p hp
    exact (hm2mem p hp).symm
  have hmerge : _merge_okolica_sources rss html gazeta
      = (m1.map Prod.snd ++ Bp.map Prod.snd) ++ gazeta := by
    show (List.foldl (fun m a => insertIfAbsent m (canonUrl a.url) a) m1 html).map
      (fun p => p.2) ++ gazeta = (m1.map Prod.snd ++ Bp.map Prod.snd) ++ gazeta
    rw [h1, List.map_append]
  refine ⟨m1.map Prod.snd, Bp.map Prod.snd, ?_, ?_, ?_, ?_, ?_, ?_, ?_⟩
  · exact hmerge
  · intro a ha
    rcases List.mem_map.mp ha with ⟨p, hp, hpe⟩
    exact hpe ▸ (hm1mem p hp).1
  · intro b hb
    rcases List.mem_map.mp hb with ⟨p, hp, hpe⟩
    subst hpe
    refine ⟨List.Sublist.mem (List.mem_map_of_mem Prod.snd hp) h2, ?_⟩
    intro hmem
    rcases List.mem_map.mp hmem with ⟨r, hr, hre⟩
    have : p.1 ∈ m1.map Prod.fst := by
      rw [hm1k]
      exact ⟨r, hr, (h3 p hp).1 ▸ hre⟩
    exact (h3 p hp).2 this
  · exact h2
  · rw [← List.map_append, hkeys2]
    exact hm2nd
  · intro u
    rw [← List.map_append, hkeys2, h5 u, hm1k]
    constructor
    · rintro (⟨a, ha, hae⟩ | ⟨a, ha, hae⟩)
      · exact List.mem_map.mpr ⟨a, List.mem_append_left _ ha, hae⟩
      · exact List.mem_map.mpr ⟨a, List.mem_append_right _ ha, hae⟩
    · intro h
      rcases List.mem_map.mp h with ⟨a, ha, hae⟩
      rcases List.mem_append.mp ha with ha2 | ha2
      · exact Or.inl ⟨a, ha2, hae⟩
      · exact Or.inr ⟨a, ha2, hae⟩
  · intro u hr hh
    have hu2 : u ∈ (m1 ++ Bp).map Prod.fst := by
      rw [List.map_append]
      apply List.mem_append_left
      rw [hm1k]
      exact hr
    obtain ⟨q, hq, hfil⟩ := filter_key_singleton (m1 ++ Bp) u hm2nd hu2
    have hqu : q.1 = u := by
      have : q ∈ (m1 ++ Bp).filter (fun p => p.1 == u) := hfil ▸ List.mem_singleton_self q
      simpa using (List.mem_filter.mp this).2
    have hqm1 : q ∈ m1 := by
      rcases List.mem_append.mp hq with h | h
      · exact h
      · exfalso
        apply (h3 q h).2
        rw [hqu, hm1k]
        exact hr
    refine ⟨q.2, (hm1mem q hqm1).1, (hm1mem q hqm1).2 ▸ hqu, ?_⟩
    rw [← List.map_append]
    rw [List.filter_map]
    have hfc : (m1 ++ Bp).filter ((fun x => canonUrl x.url == u) ∘ Prod.snd)
        = (m1 ++ Bp).filter (fun p => p.1 == u) := by
      apply List.filter_congr
      intro p hp
      simp only [Function.comp_apply]
      rw [← hm2mem p hp]
    rw [hfc, hfil]
    rfl

/-- Witness for C2 on one RSS and one HTML record sharing a canonical URL
(scheme and trailing slash differ). -/
theorem merge_sources_dedup_witness :
    ∃ A B : List Article,
      _merge_okolica_sources [(⟨"R", "http://okolica.net/news/x/1.html/", "s", "f"⟩ : Article)]
        [(⟨"H", "https://okolica.net/news/x/1.html", "", ""⟩ : Article)] [] = A ++ B ++ [] ∧
      (∀ a ∈ A, a ∈ [(⟨"R", "http://okolica.net/news/x/1.html/", "s", "f"⟩ : Article)]) ∧
      (∀ b ∈ B, b ∈ [(⟨"H", "https://okolica.net/news/x/1.html", "", ""⟩ : Article)] ∧
        canonUrl b.url ∉ [(⟨"R", "http://okolica.net/news/x/1.html/", "s", "f"⟩ : Article)].map
          (fun r => canonUrl r.url)) ∧
      B.Sublist [(⟨"H", "https://okolica.net/news/x/1.html", "", ""⟩ : Article)] ∧
      ((A ++ B).map (fun x => canonUrl x.url)).Nodup ∧
      (∀ u, u ∈ (A ++ B).map (fun x => canonUrl x.url) ↔
        u ∈ ([(⟨"R", "http://okolica.net/news/x/1.html/", "s", "f"⟩ : Article)] ++
          [(⟨"H", "https://okolica.net/news/x/1.html", "", ""⟩ : Article)]).map (fun x => canonUrl x.url)) ∧
      (∀ u, (∃ r ∈ [(⟨"R", "http://okolica.net/news/x/1.html/", "s", "f"⟩ : Article)], canonUrl r.url = u) →
        (∃ h ∈ [(⟨"H", "https://okolica.net/news/x/1.html", "", ""⟩ : Article)], canonUrl h.url = u) →
        ∃ a ∈ [(⟨"R", "http://okolica.net/news/x/1.html/", "s", "f"⟩ : Article)], canonUrl a.url = u ∧
          (A ++ B).filter (fun x => canonUrl x.url == u) = [a]) :=
  merge_sources_dedup [(⟨"R", "http://okolica.net/news/x/1.html/", "s", "f"⟩ : Article)]
    [(⟨"H", "https://okolica.net/news/x/1.html", "", ""⟩ : Article)] []

/-- One archive candidate title preserves the crawl invariant: records
point at the archive root, have collapsed titles of length ≥ 5 equal to
their fulltext, titles are registered in the seen set and stay
duplicate-free. -/
theorem gazetaPartStep_inv (st : List String × List Article) (p : List Char)
    (h1 : ∀ r ∈ st.2, r.url = OLD_SITE_URL ++ "/gazeta/" ∧ 5 ≤ r.title.length ∧
      r.fulltext = r.title ∧ r.title ∈ st.1)
    (h2 : (st.2.map (fun a => a.title)).Nodup) :
    (∀ r ∈ (gazetaPartStep st p).2, r.url = OLD_SITE_URL ++ "/gazeta/" ∧
      5 ≤ r.title.length ∧ r.fulltext = r.title ∧ r.title ∈ (gazetaPartStep st p).1) ∧
    ((gazetaPartStep st p).2.map (fun a => a.title)).Nodup := by
  simp only [gazetaPartStep]
  split
  · exact ⟨h1, h2⟩
  · next hc =>
    push_neg at hc
    constructor
    · intro r hr
      rcases List.mem_append.mp hr with hr2 | hr2
      · have := h1 r hr2
        exact ⟨this.1, this.2.1, this.2.2.1,
          List.mem_append_left _ this.2.2.2⟩
      · rw [List.mem_singleton] at hr2
        subst hr2
        refine ⟨rfl, hc.1, rfl, List.mem_append_right _ (List.mem_singleton_self _)⟩
    · rw [List.map_append, List.map_singleton]
      rw [List.nodup_append]
      refine ⟨h2, List.nodup_singleton _, ?_⟩
      intro t ht ht2
      rw [List.mem_singleton] at ht2
      subst ht2
      rcases List.mem_map.mp ht with ⟨r, hr, hre⟩
      have hseen := (h1 r hr).2.2.2
      rw [hre] at hseen
      have hnc : st.1.contains (collapseWs ⟨p⟩) = false := by
        cases hcc : st.1.contains (collapseWs ⟨p⟩) with
        | false => rfl
        | true => exact absurd hcc (by simpa using hc.2)
      have := List.any_eq_false.mp (by rw [List.contains_eq_any_beq] at hnc; exact hnc)
        _ hseen
      simp at this

/-- The candidate-title loop of one block preserves the crawl invariant. -/
theorem gazetaParts_inv : ∀ (parts : List (List Char)) (st : List String × List Article),
    ((∀ r ∈ st.2, r.url = OLD_SITE_URL ++ "/gazeta/" ∧ 5 ≤ r.title.length ∧
      r.fulltext = r.title ∧ r.title ∈ st.1) ∧
     (st.2.map (fun a => a.title)).Nodup) →
    ((∀ r ∈ (parts.foldl gazetaPartStep st).2, r.url = OLD_SITE_URL ++ "/gazeta/" ∧
      5 ≤ r.title.length ∧ r.fulltext = r.title ∧
      r.title ∈ (parts.foldl gazetaPartStep st).1) ∧
     ((parts.foldl gazetaPartStep st).2.map (fun a => a.title)).Nodup)
  | [], _, h => h
  | p :: parts, st, h => by
    rw [List.foldl_cons]
    exact gazetaParts_inv parts _ (gazetaPartStep_inv st p h.1 h.2)

/-- One block preserves the crawl invariant. -/
theorem gazetaBlock_inv (txt : String) (st : List String × List Article)
    (h : (∀ r ∈ st.2, r.url = OLD_SITE_URL ++ "/gazeta/" ∧ 5 ≤ r.title.length ∧
      r.fulltext = r.title ∧ r.title ∈ st.1) ∧
     (st.2.map (fun a => a.title)).Nodup) :
    ((∀ r ∈ (processGazetaBlock st txt).2, r.url = OLD_SITE_URL ++ "/gazeta/" ∧
      5 ≤ r.title.length ∧ r.fulltext = r.title ∧
      r.title ∈ (processGazetaBlock st txt).1) ∧
     ((processGazetaBlock st txt).2.map (fun a => a.title)).Nodup) := by
  unfold processGazetaBlock
  split
  · exact h
  · exact gazetaParts_inv _ st h

/-- One page's block loop preserves the crawl invariant. -/
theorem gazetaBlocks_inv : ∀ (blocks : List String) (st : List String × List Article),
    ((∀ r ∈ st.2, r.url = OLD_SITE_URL ++ "/gazeta/" ∧ 5 ≤ r.title.length ∧
      r.fulltext = r.title ∧ r.title ∈ st.1) ∧
     (st.2.map (fun a => a.title)).Nodup) →
    ((∀ r ∈ (blocks.foldl processGazetaBlock st).2, r.url = OLD_SITE_URL ++ "/gazeta/" ∧
      5 ≤ r.title.length ∧ r.fulltext = r.title ∧
      r.title ∈ (blocks.foldl processGazetaBlock st).1) ∧
     ((blocks.foldl processGazetaBlock st).2.map (fun a => a.title)).Nodup)
  | [], _, h => h
  | b :: blocks, st, h => by
    rw [List.foldl_cons]
    exact gazetaBlocks_inv blocks _ (gazetaBlock_inv b st h)

/-- The page loop preserves the crawl invariant (errors break, keeping the
state). -/
theorem gazetaPages_inv : ∀ (pages : List (Except String (List String)))
    (st : List String × List Article),
    ((∀ r ∈ st.2, r.url = OLD_SITE_URL ++ "/gazeta/" ∧ 5 ≤ r.title.length ∧
      r.fulltext = r.title ∧ r.title ∈ st.1) ∧
     (st.2.map (fun a => a.title)).Nodup) →
    ((∀ r ∈ (gazetaPagesAux pages st).2, r.url = OLD_SITE_URL ++ "/gazeta/" ∧
      5 ≤ r.title.length ∧ r.fulltext = r.title ∧
      r.title ∈ (gazetaPagesAux pages st).1) ∧
     ((gazetaPagesAux pages st).2.map (fun a => a.title)).Nodup)
  | [], _, h => h
  | page :: pages, st, h => by
    unfold gazetaPagesAux
    cases page with
    | error e => exact h
    | ok blocks => exact gazetaPages_inv pages _ (gazetaBlocks_inv blocks st h)

/-- C8: every record the archive adapter emits points at the archive root
URL and has a title of length ≥ 5 stored also as its fulltext; titles are
globally deduplicated by exact string equality; the example block
`• Выпуск 12 • Интервью с мэром • short` yields exactly the titles
`Выпуск 12`, `Интервью с мэром` and the retained 5-character `short`,
a 3-character fragment (`мэр`) is dropped, and a repeated title across
blocks or pages is kept once. -/
theorem gazeta_adapter_spec :
    (∀ (pages : List (Except String (List String))), ∀ r ∈ _fetch_okolica_gazeta pages,
      r.url = OLD_SITE_URL ++ "/gazeta/" ∧ 5 ≤ r.title.length ∧ r.fulltext = r.title) ∧
    (∀ (pages : List (Except String (List String))),
      ((_fetch_okolica_gazeta pages).map (fun a => a.title)).Nodup) ∧
    ((_fetch_okolica_gazeta [.ok ["• Выпуск 12 • Интервью с мэром • short"]]).map
      (fun a => a.title) = ["Выпуск 12", "Интервью с мэром", "short"]) ∧
    ((_fetch_okolica_gazeta [.ok ["• Выпуск 12 • мэр"]]).map (fun a => a.title)
      = ["Выпуск 12"]) ∧
    ((_fetch_okolica_gazeta [.ok ["• Выпуск 12 • второй текст"],
        .ok ["• Выпуск 12 • Интервью с мэром"]]).map (fun a => a.title)
      = ["Выпуск 12", "второй текст", "Интервью с мэром"]) := by
  refine ⟨?_, ?_, by decide, by decide, by decide⟩
  · intro pages r hr
    have := (gazetaPages_inv pages ([], []) (by simp)).1 r hr
    exact ⟨this.1, this.2.1, this.2.2.1⟩
  · intro pages
    exact (gazetaPages_inv pages ([], []) (by simp)).2

/-- Witness for C8 at a concrete crawl. -/
theorem gazeta_adapter_spec_witness :
    ((⟨"Выпуск 12", OLD_SITE_URL ++ "/gazeta/", "", "Выпуск 12"⟩ : Article) ∈
      _fetch_okolica_gazeta [.ok ["• Выпуск 12 • мэр"]]) ∧
    ((⟨"Выпуск 12", OLD_SITE_URL ++ "/gazeta/", "", "Выпуск 12"⟩ : Article).url
        = OLD_SITE_URL ++ "/gazeta/" ∧
      5 ≤ (⟨"Выпуск 12", OLD_SITE_URL ++ "/gazeta/", "", "Выпуск 12"⟩ : Article).title.length ∧
      (⟨"Выпуск 12", OLD_SITE_URL ++ "/gazeta/", "", "Выпуск 12"⟩ : Article).fulltext
        = (⟨"Выпуск 12", OLD_SITE_URL ++ "/gazeta/", "", "Выпуск 12"⟩ : Article).title) :=
  ⟨by decide, gazeta_adapter_spec.1 [.ok ["• Выпуск 12 • мэр"]] _ (by decide)⟩

/-- One anchor preserves the listing-crawl invariant, stated relative to a
frozen set `F` of previously-forbidden hrefs (the seen set at section
start): emitted hrefs pass the filter, are registered in the seen set, stay
outside `F` and duplicate-free; records carry the derived URL and a title
of length ≥ 5. -/
theorem processAnchor_inv (F : List String) (st : List String × List (String × Article))
    (a : Anchor)
    (h1 : (st.2.map Prod.fst).Nodup) (h2 : ∀ s ∈ F, s ∈ st.1)
    (h3 : ∀ pr ∈ st.2, anchorHrefOk pr.1 = true ∧ pr.2.url = mkFullUrl pr.1 ∧
      5 ≤ pr.2.title.length ∧ pr.1 ∈ st.1 ∧ pr.1 ∉ F) :
    ((processAnchor st a).2.map Prod.fst).Nodup ∧
    (∀ s ∈ F, s ∈ (processAnchor st a).1) ∧
    (∀ pr ∈ (processAnchor st a).2, anchorHrefOk pr.1 = true ∧
      pr.2.url = mkFullUrl pr.1 ∧ 5 ≤ pr.2.title.length ∧
      pr.1 ∈ (processAnchor st a).1 ∧ pr.1 ∉ F) := by
  obtain ⟨seen, arts⟩ := st
  simp only [processAnchor]
  split
  · exact ⟨h1, h2, h3⟩
  · next hok =>
    split
    · exact ⟨h1, h2, h3⟩
    · next hseen =>
      split
      · exact ⟨h1, h2, h3⟩
      · next htitle =>
        have hnotin : a.href ∉ seen := by
          intro hmem
          rcases hcc : seen.contains a.href with _ | _
          · have := List.any_eq_false.mp
              (by rw [List.contains_eq_any_beq] at hcc; exact hcc) _ hmem
            simp at this
          · exact hseen hcc
        push_neg at htitle
        refine ⟨?_, ?_, ?_⟩
        · rw [List.map_append, List.map_singleton]
          rw [List.nodup_append]
          refine ⟨h1, List.nodup_singleton _, ?_⟩
          intro u hu hu2
          rw [List.mem_singleton] at hu2
          subst hu2
          rcases List.mem_map.mp hu with ⟨q, hq, hqe⟩
          apply hnotin
          have hq1 : q.1 = a.href := hqe
          exact hq1 ▸ (h3 q hq).2.2.2.1
        · intro s hs
          exact List.mem_cons_of_mem _ (h2 s hs)
        · intro pr hpr
          rcases List.mem_append.mp hpr with hpr2 | hpr2
          · have := h3 pr hpr2
            exact ⟨this.1, this.2.1, this.2.2.1,
              List.mem_cons_of_mem _ this.2.2.2.1, this.2.2.2.2⟩
          · rw [List.mem_singleton] at hpr2
            subst hpr2
            have hok2 : anchorHrefOk a.href = true := by
              rcases hcc : anchorHrefOk a.href with _ | _
              · exact absurd (by simp [hcc]) hok
              · rfl
            refine ⟨hok2, rfl, htitle.2, List.mem_cons_self _ _, ?_⟩
            intro hF
            exact hnotin (h2 _ hF)

/-- Every record one anchor adds comes from that anchor: href and stripped
text. -/
theorem processAnchor_prov (st : List String × List (String × Article)) (a : Anchor) :
    ∀ pr ∈ (processAnchor st a).2, pr ∈ st.2 ∨
      (pr.1 = a.href ∧ pr.2.title = stripTrailingMarker a.text) := by
  obtain ⟨seen, arts⟩ := st
  simp only [processAnchor]
  split
  · exact fun pr hpr => Or.inl hpr
  · split
    · exact fun pr hpr => Or.inl hpr
    · split
      · exact fun pr hpr => Or.inl hpr
      · intro pr hpr
        rcases List.mem_append.mp hpr with h | h
        · exact Or.inl h
        · rw [List.mem_singleton] at h
          subst h
          exact Or.inr ⟨rfl, rfl⟩

/-- One page's anchor loop preserves the listing-crawl invariant. -/
theorem processPage_inv : ∀ (anchors : List Anchor) (F : List String)
    (st : List String × List (String × Article)),
    (st.2.map Prod.fst).Nodup → (∀ s ∈ F, s ∈ st.1) →
    (∀ pr ∈ st.2, anchorHrefOk pr.1 = true ∧ pr.2.url = mkFullUrl pr.1 ∧
      5 ≤ pr.2.title.length ∧ pr.1 ∈ st.1 ∧ pr.1 ∉ F) →
    ((processPage st anchors).2.map Prod.fst).Nodup ∧
    (∀ s ∈ F, s ∈ (processPage st anchors).1) ∧
    (∀ pr ∈ (processPage st anchors).2, anchorHrefOk pr.1 = true ∧
      pr.2.url = mkFullUrl pr.1 ∧ 5 ≤ pr.2.title.length ∧
      pr.1 ∈ (processPage st anchors).1 ∧ pr.1 ∉ F)
  | [], _, _, h1, h2, h3 => ⟨h1, h2, h3⟩
  | a :: anchors, F, st, h1, h2, h3 => by
    have step := processAnchor_inv F st a h1 h2 h3
    exact processPage_inv anchors F (processAnchor st a) step.1 step.2.1 step.2.2

/-- Every record a page adds comes from one of its anchors. -/
theorem processPage_prov : ∀ (anchors : List Anchor)
    (st : List String × List (String × Article)),
    ∀ pr ∈ (processPage st anchors).2, pr ∈ st.2 ∨
      ∃ a ∈ anchors, pr.1 = a.href ∧ pr.2.title = stripTrailingMarker a.text
  | [], _, pr, hpr => Or.inl hpr
  | a :: anchors, st, pr, hpr => by
    rcases processPage_prov anchors (processAnchor st a) pr hpr with h | ⟨b, hb, hbe⟩
    · rcases processAnchor_prov st a pr h with h2 | h2
      · exact Or.inl h2
      · exact Or.inr ⟨a, List.mem_cons_self _ _, h2⟩
    · exact Or.inr ⟨b, List.mem_cons_of_mem _ hb, hbe⟩

/-- A section's page loop preserves the listing-crawl invariant. -/
theorem sectionPagesAux_inv : ∀ (pages : List (Except String (List Anchor)))
    (F : List String) (st : List String × List (String × Article)),
    (st.2.map Prod.fst).Nodup → (∀ s ∈ F, s ∈ st.1) →
    (∀ pr ∈ st.2, anchorHrefOk pr.1 = true ∧ pr.2.url = mkFullUrl pr.1 ∧
      5 ≤ pr.2.title.length ∧ pr.1 ∈ st.1 ∧ pr.1 ∉ F) →
    ((sectionPagesAux pages st).2.map Prod.fst).Nodup ∧
    (∀ s ∈ F, s ∈ (sectionPagesAux pages st).1) ∧
    (∀ pr ∈ (sectionPagesAux pages st).2, anchorHrefOk pr.1 = true ∧
      pr.2.url = mkFullUrl pr.1 ∧ 5 ≤ pr.2.title.length ∧
      pr.1 ∈ (sectionPagesAux pages st).1 ∧ pr.1 ∉ F)
  | [], _, _, h1, h2, h3 => ⟨h1, h2, h3⟩
  | page :: pages, F, st, h1, h2, h3 => by
    unfold sectionPagesAux
    cases page with
    | error e => exact ⟨h1, h2, h3⟩
    | ok anchors =>
      have step := processPage_inv anchors F st h1 h2 h3
      exact sectionPagesAux_inv pages F (processPage st anchors) step.1 step.2.1 step.2.2

/-- Every record a section adds comes from an anchor of one of its
successfully fetched pages. -/
theorem sectionPagesAux_prov : ∀ (pages : List (Except String (List Anchor)))
    (st : List String × List (String × Article)),
    ∀ pr ∈ (sectionPagesAux pages st).2, pr ∈ st.2 ∨
      ∃ anchors, Except.ok anchors ∈ pages ∧
        ∃ a ∈ anchors, pr.1 = a.href ∧ pr.2.title = stripTrailingMarker a.text
  | [], _, pr, hpr => Or.inl hpr
  | page :: pages, st, pr, hpr => by
    unfold sectionPagesAux at hpr
    cases page with
    | error e => exact Or.inl hpr
    | ok anchors =>
      rcases sectionPagesAux_prov pages (processPage st anchors) pr hpr with h | ⟨bs, hbs, hbe⟩
      · rcases processPage_prov anchors st pr h with h2 | ⟨a, ha, hae⟩
        · exact Or.inl h2
        · exact Or.inr ⟨anchors, List.mem_cons_self _ _, a, ha, hae⟩
      · exact Or.inr ⟨bs, List.mem_cons_of_mem _ hbs, hbe⟩

/-- The anchor step only appends records; the accumulated list is a
prefix-independent suffix. -/
theorem processAnchor_shift (seen : List String) (arts : List (String × Article)) (a : Anchor) :
    processAnchor (seen, arts) a =
      ((processAnchor (seen, []) a).1, arts ++ (processAnchor (seen, []) a).2) := by
  simp only [processAnchor]
  split
  · simp
  · split
    · simp
    · split
      · simp
      · simp

/-- The page step only appends records. -/
theorem processPage_shift : ∀ (anchors : List Anchor) (seen : List String)
    (arts : List (String × Article)),
    processPage (seen, arts) anchors =
      ((processPage (seen, []) anchors).1, arts ++ (processPage (seen, []) anchors).2)
  | [], seen, arts => by simp [processPage]
  | a :: anchors, seen, arts => by
    show processPage (processAnchor (seen, arts) a) anchors = _
    rw [processAnchor_shift]
    rcases hpa : processAnchor (seen, []) a with ⟨s1, new1⟩
    have hR : processPage (seen, ([] : List (String × Article))) (a :: anchors)
        = processPage (s1, new1) anchors := by
      show processPage (processAnchor (seen, []) a) anchors = _
      rw [hpa]
    rw [hR, processPage_shift anchors s1 (arts ++ new1), processPage_shift anchors s1 new1]
    simp [List.append_assoc]

/-- The section loop only appends records. -/
theorem sectionPagesAux_shift : ∀ (pages : List (Except String (List Anchor)))
    (seen : List String) (arts : List (String × Article)),
    sectionPagesAux pages (seen, arts) =
      ((sectionPagesAux pages (seen, [])).1,
        arts ++ (sectionPagesAux pages (seen, [])).2)
  | [], seen, arts => by simp [sectionPagesAux]
  | page :: pages, seen, arts => by
    cases page with
    | error e => simp [sectionPagesAux]
    | ok anchors =>
      show sectionPagesAux pages (processPage (seen, arts) anchors)
        = ((sectionPagesAux pages (processPage (seen, []) anchors)).1,
           arts ++ (sectionPagesAux pages (processPage (seen, []) anchors)).2)
      rw [processPage_shift anchors seen arts]
      rcases hpp : processPage (seen, []) anchors with ⟨s1, new1⟩
      rw [sectionPagesAux_shift pages s1 (arts ++ new1),
        sectionPagesAux_shift pages s1 new1]
      simp [List.append_assoc]

/-- Running one section on the crawl state is the same as running its page
loop on (shared seen set, accumulated records). -/
theorem htmlSectionStep_eq (st : List String × List (String × Article))
    (pages : List (Except String (List Anchor))) :
    htmlSectionStep st pages = sectionPagesAux pages (st.1, st.2) := by
  obtain ⟨seen, arts⟩ := st
  unfold htmlSectionStep _fetch_okolica_html_from_path
  rw [sectionPagesAux_shift pages seen arts]

/-- The whole crawl keeps hrefs duplicate-free and every record
well-formed. -/
theorem html_crawl_inv : ∀ (sections : List (List (Except String (List Anchor))))
    (st : List String × List (String × Article)),
    (st.2.map Prod.fst).Nodup →
    (∀ pr ∈ st.2, anchorHrefOk pr.1 = true ∧ pr.2.url = mkFullUrl pr.1 ∧
      5 ≤ pr.2.title.length ∧ pr.1 ∈ st.1) →
    ((sections.foldl htmlSectionStep st).2.map Prod.fst).Nodup ∧
    (∀ pr ∈ (sections.foldl htmlSectionStep st).2, anchorHrefOk pr.1 = true ∧
      pr.2.url = mkFullUrl pr.1 ∧ 5 ≤ pr.2.title.length ∧
      pr.1 ∈ (sections.foldl htmlSectionStep st).1)
  | [], _, h1, h3 => ⟨h1, h3⟩
  | pages :: sections, st, h1, h3 => by
    rw [List.foldl_cons, htmlSectionStep_eq]
    have step := sectionPagesAux_inv pages [] (st.1, st.2) h1 (by simp)
      (fun pr hpr => by
        have := h3 pr hpr
        exact ⟨this.1, this.2.1, this.2.2.1, this.2.2.2, by simp⟩)
    apply html_crawl_inv sections _ step.1
    intro pr hpr
    have := step.2.2 pr hpr
    exact ⟨this.1, this.2.1, this.2.2.1, this.2.2.2.1⟩

/-- A fetch failure stops the section's page loop exactly where it is: the
pages after the error are never processed and the gathered state is kept. -/
theorem sectionPages_break : ∀ (goodPages : List (List Anchor)) (e : String)
    (rest : List (Except String (List Anchor)))
    (st : List String × List (String × Article)),
    sectionPagesAux (goodPages.map Except.ok ++ Except.error e :: rest) st
      = sectionPagesAux (goodPages.map Except.ok) st
  | [], _, _, _ => rfl
  | anchors :: goodPages, e, rest, st => by
    simp only [List.map_cons, List.cons_append]
    unfold sectionPagesAux
    exact sectionPages_break goodPages e rest (processPage st anchors)

/-- C7: every record the HTML-listing adapter emits comes from an anchor of
a successfully fetched page whose href passes the strict
`/news/<segment>/<digits>.html` pattern and the `top.html`/`last.html`/feed
exclusions, was not seen before (not in the incoming seen set, and hrefs
are pairwise distinct crawl-wide), and carries the stripped anchor text of
length ≥ 5 as title; a page-fetch failure in a section drops only that
section's remaining pages, both at section level and inside the
multi-section crawl. -/
theorem html_adapter_spec :
    (∀ (pages : List (Except String (List Anchor))) (seen0 : List String),
      (((_fetch_okolica_html_from_path pages seen0).2.map Prod.fst).Nodup ∧
       ∀ pr ∈ (_fetch_okolica_html_from_path pages seen0).2,
         anchorHrefOk pr.1 = true ∧ pr.2.url = mkFullUrl pr.1 ∧
         5 ≤ pr.2.title.length ∧ pr.1 ∉ seen0 ∧
         ∃ anchors, Except.ok anchors ∈ pages ∧ ∃ a ∈ anchors, pr.1 = a.href ∧
           pr.2.title = stripTrailingMarker a.text)) ∧
    (∀ sections, ((_fetch_okolica_html sections).map Prod.fst).Nodup) ∧
    (∀ (goodPages : List (List Anchor)) (e : String)
      (rest : List (Except String (List Anchor))) (seen0 : List String),
      _fetch_okolica_html_from_path (goodPages.map Except.ok ++ Except.error e :: rest) seen0
        = _fetch_okolica_html_from_path (goodPages.map Except.ok) seen0) ∧
    (∀ (secsBefore : List (List (Except String (List Anchor))))
      (goodPages : List (List Anchor)) (e : String)
      (rest : List (Except String (List Anchor)))
      (secsAfter : List (List (Except String (List Anchor)))),
      _fetch_okolica_html
          (secsBefore ++ (goodPages.map Except.ok ++ Except.error e :: rest) :: secsAfter)
        = _fetch_okolica_html (secsBefore ++ goodPages.map Except.ok :: secsAfter)) := by
  refine ⟨?_, ?_, ?_, ?_⟩
  · intro pages seen0
    have hinv := sectionPagesAux_inv pages seen0 (seen0, []) (by simp)
      (fun s hs => hs) (by simp)
    refine ⟨hinv.1, ?_⟩
    intro pr hpr
    have h1 := hinv.2.2 pr hpr
    have h2 := sectionPagesAux_prov pages (seen0, []) pr hpr
    rcases h2 with h2 | h2
    · simp at h2
    · exact ⟨h1.1, h1.2.1, h1.2.2.1, h1.2.2.2.2, h2⟩
  · intro sections
    exact (html_crawl_inv sections ([], []) (by simp) (by simp)).1
  · intro goodPages e rest seen0
    unfold _fetch_okolica_html_from_path
    exact sectionPages_break goodPages e rest (seen0, [])
  · intro secsBefore goodPages e rest secsAfter
    unfold _fetch_okolica_html
    rw [List.foldl_append, List.foldl_append, List.foldl_cons, List.foldl_cons]
    have hsec : htmlSectionStep (List.foldl htmlSectionStep ([], []) secsBefore)
        (goodPages.map Except.ok ++ Except.error e :: rest)
      = htmlSectionStep (List.foldl htmlSectionStep ([], []) secsBefore)
        (goodPages.map Except.ok) := by
      rw [htmlSectionStep_eq, htmlSectionStep_eq]
      exact sectionPages_break goodPages e rest _
    rw [hsec]

/-- Witness for C7: a concrete section stops at the failing page. -/
theorem html_adapter_spec_witness :
    _fetch_okolica_html_from_path
        ([[⟨"/news/a/1.html", "Первая статья"⟩]].map Except.ok ++
          Except.error "boom" :: [Except.ok [⟨"/news/b/2.html", "Вторая статья"⟩]]) []
      = _fetch_okolica_html_from_path
          ([[⟨"/news/a/1.html", "Первая статья"⟩]].map Except.ok) [] :=
  html_adapter_spec.2.2.1 [[⟨"/news/a/1.html", "Первая статья"⟩]] "boom"
    [Except.ok [⟨"/news/b/2.html", "Вторая статья"⟩]] []

/-- The lexicographic comparison on character lists is total. -/
theorem listLe_total : ∀ (a b : List Char), listLe a b = true ∨ listLe b a = true
  | [], _ => Or.inl rfl
  | _ :: _, [] => Or.inr rfl
  | a :: as, b :: bs => by
    rcases lt_trichotomy a b with h | h | h
    · left
      show (if a < b then true else if b < a then false else listLe as bs) = true
      rw [if_pos h]
    · subst h
      have e1 : listLe (a :: as) (a :: bs) = listLe as bs := by
        show (if a < a then true else if a < a then false else listLe as bs) = _
        rw [if_neg (lt_irrefl a), if_neg (lt_irrefl a)]
      have e2 : listLe (a :: bs) (a :: as) = listLe bs as := by
        show (if a < a then true else if a < a then false else listLe bs as) = _
        rw [if_neg (lt_irrefl a), if_neg (lt_irrefl a)]
      rw [e1, e2]
      exact listLe_total as bs
    · right
      show (if b < a then true else if a < b then false else listLe bs as) = true
      rw [if_pos h]

/-- The lexicographic comparison on character lists is transitive. -/
theorem listLe_trans : ∀ (a b c : List Char),
    listLe a b = true → listLe b c = true → listLe a c = true
  | [], _, _, _, _ => rfl
  | a :: as, [], _, h, _ => by simp [listLe] at h
  | a :: as, b :: bs, [], _, h => by simp [listLe] at h
  | a :: as, b :: bs, c :: cs, h1, h2 => by
    rw [show listLe (a :: as) (b :: bs)
      = (if a < b then true else if b < a then false else listLe as bs) from rfl] at h1
    rw [show listLe (b :: bs) (c :: cs)
      = (if b < c then true else if c < b then false else listLe bs cs) from rfl] at h2
    show (if a < c then true else if c < a then false else listLe as cs) = true
    rcases lt_trichotomy a b with hab | hab | hab
    · rcases lt_trichotomy b c with hbc | hbc | hbc
      · rw [if_pos (lt_trans hab hbc)]
      · subst hbc
        rw [if_pos hab]
      · rw [if_neg (asymm hbc), if_pos hbc] at h2
        exact absurd h2 (by simp)
    · subst hab
      rcases lt_trichotomy a c with hac | hac | hac
      · rw [if_pos hac]
      · subst hac
        rw [if_neg (lt_irrefl a), if_neg (lt_irrefl a)] at h1
        rw [if_neg (lt_irrefl a), if_neg (lt_irrefl a)] at h2
        rw [if_neg (lt_irrefl a), if_neg (lt_irrefl a)]
        exact listLe_trans as bs cs h1 h2
      · rw [if_neg (asymm hac), if_pos hac] at h2
        exact absurd h2 (by simp)
    · rw [if_neg (asymm hab), if_pos hab] at h1
      exact absurd h1 (by simp)

/-- The ranking comparison (descending count, ascending title) is total. -/
theorem scoredRel_total : ∀ x y : Nat × Article, scoredRel x y ∨ scoredRel y x := by
  intro x y
  unfold scoredRel
  rcases lt_trichotomy x.1 y.1 with h | h | h
  · right
    exact Or.inl h
  · rcases listLe_total x.2.title.data y.2.title.data with h2 | h2
    · left
      exact Or.inr ⟨h, h2⟩
    · right
      exact Or.inr ⟨h.symm, h2⟩
  · left
    exact Or.inl h

/-- The ranking comparison is transitive. -/
theorem scoredRel_trans : ∀ x y z : Nat × Article,
    scoredRel x y → scoredRel y z → scoredRel x z := by
  intro x y z hxy hyz
  unfold scoredRel at hxy hyz ⊢
  rcases hxy with h1 | ⟨h1, h1t⟩
  · rcases hyz with h2 | ⟨h2, h2t⟩
    · exact Or.inl (lt_trans h2 h1)
    · exact Or.inl (h2 ▸ h1)
  · rcases hyz with h2 | ⟨h2, h2t⟩
    · exact Or.inl (by rw [h1]; exact h2)
    · exact Or.inr ⟨h1.trans h2, listLe_trans _ _ _ h1t h2t⟩

/-- C1: when at least one pooled record matches every query term (and the
term list is non-empty), `_run_search` returns exactly the full-match
phase: a permutation of the fully-matching scored records sorted by
descending match count with ties broken by ascending lexicographic title,
truncated to `limit`; consequently at most `limit` records are returned
and every returned record matches all query terms — the any-match phase is
never consulted, whatever its records would score. -/
theorem run_search_full_phase (morph : Option (String → String))
    (articles : List Article) (query_words : List String) (limit : Nat)
    (hq : query_words ≠ [])
    (hfull : ∃ a ∈ articles, ∀ w ∈ query_words,
      _word_matches morph w (searchable a) = true) :
    ∃ sorted : List (Nat × Article),
      sorted.Perm (fullMatchScored morph articles query_words) ∧
      sorted.Sorted scoredRel ∧
      _run_search morph articles query_words limit
        = (sorted.take limit).map (fun p => toResult p.2) ∧
      (_run_search morph articles query_words limit).length ≤ limit ∧
      (∀ r ∈ _run_search morph articles query_words limit,
        ∃ a ∈ articles, toResult a = r ∧
          ∀ w ∈ query_words, _word_matches morph w (searchable a) = true) := by
  obtain ⟨a0, ha0, hall⟩ := hfull
  have hcond : query_words.all (fun w => _word_matches morph w (searchable a0)) = true :=
    List.all_eq_true.mpr hall
  have hmem : (_count_matches morph query_words (searchable a0), a0)
      ∈ fullMatchScored morph articles query_words := by
    apply List.mem_filterMap.mpr
    refine ⟨a0, ha0, ?_⟩
    simp only [hcond, if_true]
  have hne : fullMatchScored morph articles query_words ≠ [] :=
    List.ne_nil_of_mem hmem
  have hrun : _run_search morph articles query_words limit
      = ((List.insertionSort scoredRel
          (fullMatchScored morph articles query_words)).take limit).map
        (fun p => toResult p.2) := by
    unfold _run_search
    rw [if_neg (by simpa using hq), if_pos (by simpa using hne)]
  refine ⟨List.insertionSort scoredRel (fullMatchScored morph articles query_words),
    List.perm_insertionSort _ _,
    @List.sorted_insertionSort _ scoredRel _ ⟨scoredRel_total⟩ ⟨scoredRel_trans⟩ _,
    hrun, ?_, ?_⟩
  · rw [hrun, List.length_map, List.length_take]
    omega
  · intro r hr
    rw [hrun] at hr
    rcases List.mem_map.mp hr with ⟨p, hp, hpe⟩
    have hp2 : p ∈ fullMatchScored morph articles query_words :=
      (List.perm_insertionSort scoredRel _).mem_iff.mp (List.mem_of_mem_take hp)
    rcases List.mem_filterMap.mp hp2 with ⟨a, ha, hfa⟩
    simp only at hfa
    split at hfa
    · next hcall =>
      refine ⟨a, ha, ?_, List.all_eq_true.mp hcall⟩
      obtain rfl : p = (_count_matches morph query_words (searchable a), a) := by
        exact (Option.some_inj.mp hfa).symm
      exact hpe
    · exact Option.noConfusion hfa

/-- Witness for C1 at a concrete pool and query. -/
theorem run_search_full_phase_witness :
    ∃ sorted : List (Nat × Article),
      sorted.Perm (fullMatchScored none [⟨"Школа", "u", "", ""⟩] ["школа"]) ∧
      sorted.Sorted scoredRel ∧
      _run_search none [⟨"Школа", "u", "", ""⟩] ["школа"] 3
        = (sorted.take 3).map (fun p => toResult p.2) ∧
      (_run_search none [⟨"Школа", "u", "", ""⟩] ["школа"] 3).length ≤ 3 ∧
      (∀ r ∈ _run_search none [⟨"Школа", "u", "", ""⟩] ["школа"] 3,
        ∃ a ∈ [(⟨"Школа", "u", "", ""⟩ : Article)], toResult a = r ∧
          ∀ w ∈ ["школа"], _word_matches none w (searchable a) = true) :=
  run_search_full_phase none [⟨"Школа", "u", "", ""⟩] ["школа"] 3 (by decide)
    ⟨⟨"Школа", "u", "", ""⟩, by decide, by decide⟩
